import Mathlib

/-!
Verification of `yasb/update_colors.py`.

The program patches hex color values into text files and into a Windows
Terminal settings record.  We model its text pipeline over `List Char`:

* `matchVarDecl name s` models one attempted match of the `re.sub` pattern
  `({re.escape(var_name)}:\s*)#[0-9a-fA-F]{6}` at the head of `s`
  (group 1 is the variable name, the colon and the whitespace run).
* `subColor name col s` models
  `re.sub(pattern, r"\g<1>" + new_color, content)`: a left-to-right scan
  replacing every non-overlapping match, keeping group 1 and substituting
  the new color for the matched `#......` value.
* `applyMapping` / `update_file_colors` model the per-file loop of
  `update_file_colors`, including the `updated` flag, the
  write-only-if-updated behaviour, and the fact that the Python function
  returns `None` on every path (modelled as `ret = none`).
* `parseDecl` / `scan` / `cssMatches` / `read_css_variables` model
  `re.findall(r"--(color\d+|background|foreground|cursor):\s*(#[0-9a-fA-F]{6})", ...)`
  followed by the dict-building loop (later matches overwrite earlier ones).
* `update_windows_terminal_scheme` models the scheme-record update loop of
  `update_windows_terminal_scheme` (lines 174-185), and
  `update_css_color_mapping` models the mapping built in `update_css`
  (lines 204-215).

Recursions that consume a suffix returned by a matcher are written with an
explicit fuel argument (the input length always suffices, each step consumes
at least one character); this keeps every definition computable by `decide`.
-/

/-- Whitespace characters matched by the regex class `\s` (ASCII range). -/
def isWsChar (c : Char) : Bool :=
  c = ' ' || c = '\t' || c = '\n' || c = '\r' || c = '\x0B' || c = '\x0C'

/-- Characters matched by the regex class `[0-9a-fA-F]`. -/
def isHexChar (c : Char) : Bool :=
  ('0' ≤ c && c ≤ '9') || ('a' ≤ c && c ≤ 'f') || ('A' ≤ c && c ≤ 'F')

/-- Characters matched by the regex class `\d` (ASCII range). -/
def isDigitChar (c : Char) : Bool :=
  '0' ≤ c && c ≤ '9'

/-- Strip a literal prefix from a character list (`re.escape` makes the
variable name a literal in the pattern). -/
def dropPref : List Char → List Char → Option (List Char)
  | [], s => some s
  | _ :: _, [] => none
  | p :: ps, c :: cs => if c = p then dropPref ps cs else none

/-- Read exactly `n` hex digits, returning them and the rest of the input. -/
def grabHex : Nat → List Char → Option (List Char × List Char)
  | 0, s => some ([], s)
  | _ + 1, [] => none
  | n + 1, c :: cs =>
    if isHexChar c then
      match grabHex n cs with
      | some (h, r) => some (c :: h, r)
      | none => none
    else none

/-- The value part `#[0-9a-fA-F]{6}` of both patterns: a hash sign followed
by exactly six hex digits. -/
def hexAt (t : List Char) : Option (List Char × List Char) :=
  match t with
  | c :: s2 => if c = '#' then grabHex 6 s2 else none
  | [] => none

/-- One attempted match of the pattern
`({re.escape(name)}:\s*)#[0-9a-fA-F]{6}` at the head of `s`
(`update_file_colors`, line 83).  On success it returns
(group 1, the six matched hex digits, the rest of the input). -/
def matchVarDecl (name s : List Char) : Option (List Char × List Char × List Char) :=
  match dropPref (name ++ [':']) s with
  | none => none
  | some s1 =>
    match hexAt (s1.dropWhile isWsChar) with
    | some (h, r) => some (name ++ ':' :: s1.takeWhile isWsChar, h, r)
    | none => none

/-- Fuelled scan of `re.sub`: at each position try the pattern; on a match
emit group 1 followed by the replacement color and continue after the
match, otherwise keep the character (`update_file_colors`, lines 83-85). -/
def subColorF (name col : List Char) : Nat → List Char → List Char
  | _, [] => []
  | 0, s => s
  | fuel + 1, c :: cs =>
    match matchVarDecl name (c :: cs) with
    | some (g1, _, r) => g1 ++ col ++ subColorF name col fuel r
    | none => c :: subColorF name col fuel cs

/-- `re.sub(pattern, r"\g<1>" + new_color, content)` for one mapping entry. -/
def subColor (name col s : List Char) : List Char :=
  subColorF name col s.length s

/-- Fuelled collection of the hex values at every match of the pattern of
`update_file_colors` — "the values already in the file" for one variable. -/
def declValuesF (name : List Char) : Nat → List Char → List (List Char)
  | _, [] => []
  | 0, _ => []
  | fuel + 1, c :: cs =>
    match matchVarDecl name (c :: cs) with
    | some (_, h, r) => h :: declValuesF name fuel r
    | none => declValuesF name fuel cs

/-- Hex values currently declared for `name` in the file, in match order. -/
def declValues (name s : List Char) : List (List Char) :=
  declValuesF name s.length s

/-- Name alternative `color\d+` of the reader pattern: the literal `color`
followed by one or more digits (greedy, as in the regex). -/
def parseColorName (t : List Char) : Option (List Char × List Char) :=
  match dropPref "color".toList t with
  | some t1 =>
    match t1 with
    | c :: _ =>
      if isDigitChar c then
        some ("color".toList ++ t1.takeWhile isDigitChar, t1.dropWhile isDigitChar)
      else none
    | [] => none
  | none => none

/-- The alternation `color\d+|background|foreground|cursor` of the reader
pattern in `read_css_variables` (line 113), tried in the regex order. -/
def parseCssName (t : List Char) : Option (List Char × List Char) :=
  match parseColorName t with
  | some r => some r
  | none =>
    match dropPref "background".toList t with
    | some r => some ("background".toList, r)
    | none =>
      match dropPref "foreground".toList t with
      | some r => some ("foreground".toList, r)
      | none =>
        match dropPref "cursor".toList t with
        | some r => some ("cursor".toList, r)
        | none => none

/-- One attempted match of the reader pattern
`--(color\d+|background|foreground|cursor):\s*(#[0-9a-fA-F]{6})` at the head
of `s`.  On success: (group 1 name, whitespace run, the six hex digits of
group 2, rest of the input). -/
def parseDecl (s : List Char) : Option (List Char × List Char × List Char × List Char) :=
  match s with
  | c1 :: c2 :: t =>
    if c1 = '-' ∧ c2 = '-' then
      match parseCssName t with
      | some (n, t2) =>
        match t2 with
        | c3 :: t3 =>
          if c3 = ':' then
            match hexAt (t3.dropWhile isWsChar) with
            | some (h, r) => some (n, t3.takeWhile isWsChar, h, r)
            | none => none
          else none
        | [] => none
      | none => none
    else none
  | _ => none

/-- Segment of a text as seen by the reader's left-to-right scan: either a
whole variable declaration matched by the reader pattern, or one character
at a position where the pattern does not match. -/
inductive Seg where
  | decl (name ws hex : List Char)
  | ch (c : Char)
deriving DecidableEq

/-- The text a segment stands for. -/
def segText : Seg → List Char
  | .decl n ws h => '-' :: '-' :: (n ++ ':' :: (ws ++ '#' :: h))
  | .ch c => [c]

/-- Concatenate the texts of a list of segments. -/
def joinSegs (l : List Seg) : List Char :=
  (l.map segText).flatten

/-- Fuelled left-to-right scan underlying `re.findall`: at each position try
the reader pattern; on a match record the declaration and continue after it,
otherwise record the character and move one position. -/
def scanF : Nat → List Char → List Seg
  | _, [] => []
  | 0, _ => []
  | fuel + 1, c :: cs =>
    match parseDecl (c :: cs) with
    | some (n, ws, h, r) => .decl n ws h :: scanF fuel r
    | none => .ch c :: scanF fuel cs

/-- Scan of a whole text.  The input length is always enough fuel. -/
def scan (s : List Char) : List Seg :=
  scanF s.length s

/-- `re.findall` of the reader pattern: the `(group 1, group 2)` pairs of
all matches, in match order (group 2 keeps its leading `#`). -/
def cssMatches (s : List Char) : List (List Char × List Char) :=
  (scan s).filterMap fun seg =>
    match seg with
    | .decl n _ h => some (n, '#' :: h)
    | .ch _ => none

/-- Python dict assignment `d[k] = v`: overwrite in place if the key exists,
otherwise append. -/
def dinsert {α β : Type} [DecidableEq α] : List (α × β) → α → β → List (α × β)
  | [], k, v => [(k, v)]
  | (k0, v0) :: d, k, v =>
    if k = k0 then (k0, v) :: d else (k0, v0) :: dinsert d k v

/-- Python dict lookup `d.get(k)` on the association-list model. -/
def dlookup {α β : Type} [DecidableEq α] : List (α × β) → α → Option β
  | [], _ => none
  | (k0, v0) :: d, k => if k = k0 then some v0 else dlookup d k

/-- `read_css_variables` (lines 100-123): run `re.findall`, then assign every
`(name, value)` pair into a dict, later pairs overwriting earlier ones. -/
def read_css_variables (s : List Char) : List (List Char × List Char) :=
  (cssMatches s).foldl (fun d p => dinsert d p.1 p.2) []

/-- The per-file loop of `update_file_colors` (lines 80-88): apply `re.sub`
for each mapping entry against the evolving text, tracking the `updated`
flag.  Returns (final text, updated). -/
def applyMappingAux (mapping : List (List Char × List Char)) (acc : List Char × Bool) :
    List Char × Bool :=
  mapping.foldl
    (fun acc p =>
      (subColor p.1 p.2 acc.1, acc.2 || !(subColor p.1 p.2 acc.1 == acc.1)))
    acc

/-- As `applyMappingAux`, started on the file contents with `updated = False`. -/
def applyMapping (mapping : List (List Char × List Char)) (content : List Char) :
    List Char × Bool :=
  applyMappingAux mapping (content, false)

/-- Observable outcome of one `update_file_colors` call: the file contents
afterwards, whether the file was rewritten, and the Python return value
(`none` models Python's `None`; `some b` would model `return b`). -/
structure PatchResult where
  fileAfter : Option (List Char)
  updated : Bool
  ret : Option Bool
deriving DecidableEq

/-- `update_file_colors` (lines 69-98): a missing file is skipped with a
warning; otherwise the mapping is applied and the file is written back only
when the `updated` flag is set.  No path executes `return` with a value, so
the Python function returns `None` on every path. -/
def update_file_colors (file : Option (List Char))
    (mapping : List (List Char × List Char)) : PatchResult :=
  match file with
  | none => ⟨none, false, none⟩
  | some content =>
    let r := applyMapping mapping content
    if r.2 then ⟨some r.1, true, none⟩ else ⟨some content, false, none⟩

/-- The CSS-variable → Windows-Terminal-property table of
`update_windows_terminal_scheme` (lines 133-153), in source order. -/
def color_map : List (String × String) :=
  [("color0", "black"), ("color1", "red"), ("color2", "green"),
   ("color3", "yellow"), ("color4", "blue"), ("color5", "purple"),
   ("color6", "cyan"), ("color7", "white"), ("color8", "brightBlack"),
   ("color9", "brightRed"), ("color10", "brightGreen"),
   ("color11", "brightYellow"), ("color12", "brightBlue"),
   ("color13", "brightPurple"), ("color14", "brightCyan"),
   ("color15", "brightWhite"), ("background", "background"),
   ("foreground", "foreground"), ("cursor", "cursorColor")]

/-- Python `s[:7]` on a string. -/
def strTake7 (s : String) : String := ⟨s.data.take 7⟩

/-- Python `s.upper()` (ASCII letters, as in hex color strings). -/
def strUpper (s : String) : String := ⟨s.data.map Char.toUpper⟩

/-- Python `len(s)`. -/
def strLen (s : String) : Nat := s.data.length

/-- The value assigned for one scheme entry (lines 176-181): truncate a
9-character `background` value to its first 7 characters, then uppercase. -/
def schemeVal (k v : String) : String :=
  strUpper (if k = "background" && strLen v = 9 then strTake7 v else v)

/-- One iteration of the scheme-update loop (lines 174-181): skip the entry
when the CSS variable is absent; otherwise assign the (possibly truncated)
uppercased value to the property. -/
def schemeStep (vars : List (String × String)) (sch : List (String × String))
    (p : String × String) : List (String × String) :=
  match dlookup vars p.1 with
  | some v => dinsert sch p.2 (schemeVal p.1 v)
  | none => sch

/-- The scheme-record update of `update_windows_terminal_scheme`
(lines 174-185): the property loop followed by the unconditional
`selectionBackground = variables of color8.upper()` step (when present). -/
def update_windows_terminal_scheme (vars sch : List (String × String)) :
    List (String × String) :=
  let r := color_map.foldl (schemeStep vars) sch
  match dlookup vars "color8" with
  | some v => dinsert r "selectionBackground" (strUpper v)
  | none => r

/-- The color-mapping table built in `update_css` (lines 204-215):
`--color0` … `--color15` from `colors` (default `#000000`), then
`--background` (default `#000000`), `--foreground` and `--cursor`
(default `#ffffff`) from `special`. -/
def update_css_color_mapping (colors special : List (String × String)) :
    List (String × String) :=
  let base := (List.range 16).foldl
    (fun m i =>
      dinsert m ("--color" ++ toString i)
        ((dlookup colors ("color" ++ toString i)).getD "#000000")) []
  let m1 := dinsert base "--background" ((dlookup special "background").getD "#000000")
  let m2 := dinsert m1 "--foreground" ((dlookup special "foreground").getD "#ffffff")
  dinsert m2 "--cursor" ((dlookup special "cursor").getD "#ffffff")

/-- Names recognised by the reader pattern's alternation. -/
def isRecognized (n : List Char) : Bool :=
  (match dropPref "color".toList n with
   | some ds => ds ≠ [] && ds.all isDigitChar
   | none => false)
  || n = "background".toList || n = "foreground".toList || n = "cursor".toList

/-- Hex rewriting applied segment-wise: a declaration's hex value is mapped
through `f` (which sees the name), everything else is untouched. -/
def transfSeg (f : List Char → List Char → List Char) : Seg → Seg
  | .decl n ws h => .decl n ws (f n h)
  | .ch c => .ch c

/-- Well-formedness of a scan segment: declaration segments carry a
recognised name, a whitespace run and a six-digit hex value. -/
def wfSeg : Seg → Prop
  | .decl n ws h =>
    isRecognized n = true ∧ ws.all isWsChar = true ∧
      h.all isHexChar = true ∧ h.length = 6
  | .ch _ => True

/-- A mapping entry as `update_css` produces them and as the round-trip
needs them: a `--`-prefixed recognised name, and a `#RRGGBB` value. -/
def wfEntry (p : List Char × List Char) : Prop :=
  ∃ n h, isRecognized n = true ∧ p.1 = '-' :: '-' :: n ∧
    p.2 = '#' :: h ∧ h.all isHexChar = true ∧ h.length = 6

/-- The hex substitution a whole mapping performs on the declaration of a
given name: the mapped value's digits if the name is a key, else unchanged. -/
def mappingHex (mapping : List (List Char × List Char)) (n h : List Char) : List Char :=
  match dlookup mapping ('-' :: '-' :: n) with
  | some v => v.drop 1
  | none => h

/-- Stripping a prefix succeeds exactly on extensions of the prefix. -/
theorem dropPref_eq_some : ∀ {p s r : List Char}, dropPref p s = some r → s = p ++ r := by
  intro p
  induction p with
  | nil => intro s r h; simpa [dropPref] using h
  | cons a p ih =>
    intro s r h
    cases s with
    | nil => simp [dropPref] at h
    | cons c cs =>
      by_cases hc : c = a
      · rw [dropPref, if_pos hc] at h
        simp [hc, ih h]
      · rw [dropPref, if_neg hc] at h
        cases h

/-- Stripping a literal prefix from that prefix plus a tail. -/
theorem dropPref_refold : ∀ (p t : List Char), dropPref p (p ++ t) = some t := by
  intro p
  induction p with
  | nil => intro t; simp [dropPref]
  | cons a p ih => intro t; simp [dropPref, ih]

/-- A common prefix cancels on both sides of `dropPref`. -/
theorem dropPref_append_left : ∀ (a b s : List Char), dropPref (a ++ b) (a ++ s) = dropPref b s := by
  intro a
  induction a with
  | nil => intro b s; simp
  | cons c a ih => intro b s; simp [dropPref, ih]

/-- Decomposition of a successful `grabHex`. -/
theorem grabHex_eq_some :
    ∀ {n : Nat} {s h r : List Char}, grabHex n s = some (h, r) →
      s = h ++ r ∧ h.length = n ∧ h.all isHexChar = true := by
  intro n
  induction n with
  | zero =>
    intro s h r hg
    simp [grabHex] at hg
    obtain ⟨h1, h2⟩ := hg
    subst h1 h2
    simp
  | succ n ih =>
    intro s h r hg
    cases s with
    | nil => simp [grabHex] at hg
    | cons c cs =>
      rw [grabHex] at hg
      by_cases hc : isHexChar c = true
      · rw [if_pos hc] at hg
        cases hgr : grabHex n cs with
        | none => rw [hgr] at hg; cases hg
        | some pr =>
          obtain ⟨h0, r0⟩ := pr
          rw [hgr] at hg
          obtain ⟨hh, hr⟩ : c :: h0 = h ∧ r0 = r := by
            constructor <;> [exact congrArg Prod.fst (Option.some.inj hg);
              exact congrArg Prod.snd (Option.some.inj hg)]
          obtain ⟨e1, e2, e3⟩ := ih hgr
          subst hh hr
          simp [e1, e2, e3, hc]
      · rw [if_neg hc] at hg; cases hg

/-- Refolding `grabHex` on a hex block of the right length. -/
theorem grabHex_refold :
    ∀ (h r : List Char), h.all isHexChar = true → grabHex h.length (h ++ r) = some (h, r) := by
  intro h
  induction h with
  | nil => intro r _; simp [grabHex]
  | cons c h ih =>
    intro r hall
    rw [List.all_cons, Bool.and_eq_true] at hall
    simp [grabHex, hall.1, ih r hall.2]

/-- `takeWhile` and `dropWhile` on a satisfying block followed by a
non-satisfying character. -/
theorem takeWhile_all_append {p : Char → Bool} :
    ∀ (l t : List Char) (x : Char), l.all p = true → p x = false →
      ((l ++ x :: t).takeWhile p = l ∧ (l ++ x :: t).dropWhile p = x :: t) := by
  intro l
  induction l with
  | nil => intro t x _ hx; simp [List.takeWhile, List.dropWhile, hx]
  | cons c l ih =>
    intro t x hall hx
    rw [List.all_cons, Bool.and_eq_true] at hall
    obtain ⟨ht, hd⟩ := ih t x hall.2 hx
    simp [List.takeWhile_cons, List.dropWhile_cons, hall.1, ht, hd]

/-- Every element kept by `takeWhile` satisfies the predicate. -/
theorem all_takeWhile {p : Char → Bool} : ∀ (l : List Char), (l.takeWhile p).all p = true := by
  intro l
  induction l with
  | nil => simp
  | cons c l ih =>
    by_cases hc : p c = true
    · simp [List.takeWhile_cons, hc, ih]
    · simp only [Bool.not_eq_true] at hc
      simp [List.takeWhile_cons, hc]

/-- Decomposition of a successful `hexAt`. -/
theorem hexAt_eq_some {t h r : List Char} (hx : hexAt t = some (h, r)) :
    t = '#' :: (h ++ r) ∧ h.all isHexChar = true ∧ h.length = 6 := by
  cases t with
  | nil => cases hx
  | cons c s2 =>
    rw [hexAt] at hx
    by_cases hc : c = '#'
    · rw [if_pos hc] at hx
      obtain ⟨e1, e2, e3⟩ := grabHex_eq_some hx
      exact ⟨by rw [hc, e1], e3, e2⟩
    · rw [if_neg hc] at hx; cases hx

/-- Refolding `hexAt` on a well-formed value. -/
theorem hexAt_refold (h r : List Char) (hh : h.all isHexChar = true) (hl : h.length = 6) :
    hexAt ('#' :: (h ++ r)) = some (h, r) := by
  rw [hexAt, if_pos rfl]
  have := grabHex_refold h r hh
  rwa [hl] at this

/-- Decomposition of a successful match of the patch pattern. -/
theorem matchVarDecl_eq_some {name s g1 h r : List Char}
    (hm : matchVarDecl name s = some (g1, h, r)) :
    ∃ ws, ws.all isWsChar = true ∧ g1 = name ++ ':' :: ws ∧
      h.all isHexChar = true ∧ h.length = 6 ∧
      s = name ++ ':' :: (ws ++ '#' :: (h ++ r)) := by
  rw [matchVarDecl] at hm
  split at hm
  · cases hm
  · rename_i s1 hd
    split at hm
    · rename_i h0 r0 hx
      have e := Option.some.inj hm
      rw [Prod.mk.injEq, Prod.mk.injEq] at e
      obtain ⟨e1, e2, e3⟩ := e
      obtain ⟨d1, d2, d3⟩ := hexAt_eq_some hx
      refine ⟨s1.takeWhile isWsChar, all_takeWhile s1, e1.symm, e2 ▸ d2, e2 ▸ d3, ?_⟩
      have hs : s = (name ++ [':']) ++ s1 := dropPref_eq_some hd
      have hsplit : s1 = s1.takeWhile isWsChar ++ '#' :: (h ++ r) := by
        conv_lhs => rw [← List.takeWhile_append_dropWhile (p := isWsChar) (l := s1)]
        rw [d1, e2, e3]
      rw [hs]
      conv_lhs => rw [hsplit]
      simp
    · cases hm

/-- Refolding a match of the patch pattern from its parts. -/
theorem matchVarDecl_refold (name ws h r : List Char)
    (hws : ws.all isWsChar = true) (hh : h.all isHexChar = true) (hl : h.length = 6) :
    matchVarDecl name (name ++ ':' :: (ws ++ '#' :: (h ++ r))) =
      some (name ++ ':' :: ws, h, r) := by
  have hd : dropPref (name ++ [':']) (name ++ ':' :: (ws ++ '#' :: (h ++ r))) =
      some (ws ++ '#' :: (h ++ r)) := by
    have he : name ++ ':' :: (ws ++ '#' :: (h ++ r)) =
        (name ++ [':']) ++ (ws ++ '#' :: (h ++ r)) := by simp
    rw [he, dropPref_refold]
  have hwd := takeWhile_all_append ws (h ++ r) '#' hws (by decide)
  simp only [matchVarDecl, hd, hwd.1, hwd.2, hexAt_refold h r hh hl]

/-- A successful match consumes at least eight characters. -/
theorem matchVarDecl_rest_length {name s g1 h r : List Char}
    (hm : matchVarDecl name s = some (g1, h, r)) : r.length + 8 ≤ s.length := by
  obtain ⟨ws, _, _, _, hlen, hs⟩ := matchVarDecl_eq_some hm
  rw [hs]
  simp [hlen]
  omega

/-- The patch pattern never matches at a character other than the first
character of the variable name. -/
theorem matchVarDecl_head_ne {n : List Char} {x : Char} (xs : List Char)
    (hx : x ≠ '-') : matchVarDecl ('-' :: '-' :: n) (x :: xs) = none := by
  rw [matchVarDecl]
  have hd : dropPref (('-' :: '-' :: n) ++ [':']) (x :: xs) = none := by
    simp only [List.cons_append, dropPref, if_neg hx]
  rw [hd]

/-- The patch pattern never matches one character into its own name. -/
theorem matchVarDecl_snd_ne {n : List Char} {x : Char} (xs : List Char)
    (hx : x ≠ '-') : matchVarDecl ('-' :: '-' :: n) ('-' :: x :: xs) = none := by
  rw [matchVarDecl]
  have hd : dropPref (('-' :: '-' :: n) ++ [':']) ('-' :: x :: xs) = none := by
    simp only [List.cons_append]
    rw [dropPref, if_pos rfl, dropPref, if_neg hx]
  rw [hd]

/-- The patch pattern does not match the empty text. -/
theorem matchVarDecl_nil (name : List Char) : matchVarDecl name [] = none := by
  rw [matchVarDecl]
  have hd : dropPref (name ++ [':']) [] = none := by
    cases name <;> rfl
  rw [hd]

/-- The fuel of `subColorF` is irrelevant once it covers the input length. -/
theorem subColorF_irrel (name col : List Char) :
    ∀ (f1 f2 : Nat) (s : List Char), s.length ≤ f1 → s.length ≤ f2 →
      subColorF name col f1 s = subColorF name col f2 s := by
  intro f1
  induction f1 with
  | zero =>
    intro f2 s h1 _
    have hs : s = [] := List.length_eq_zero.mp (Nat.le_zero.mp h1)
    subst hs
    simp [subColorF]
  | succ f ih =>
    intro f2 s h1 h2
    cases s with
    | nil => simp [subColorF]
    | cons c cs =>
      cases f2 with
      | zero => simp at h2
      | succ f2' =>
        rw [subColorF, subColorF]
        cases hm : matchVarDecl name (c :: cs) with
        | none =>
          simp only [hm]
          have hc1 : cs.length ≤ f := by simp at h1; omega
          have hc2 : cs.length ≤ f2' := by simp at h2; omega
          rw [ih f2' cs hc1 hc2]
        | some g =>
          obtain ⟨g1, h, r⟩ := g
          simp only [hm]
          have hlen := matchVarDecl_rest_length hm
          have hr1 : r.length ≤ f := by simp at h1 hlen; omega
          have hr2 : r.length ≤ f2' := by simp at h2 hlen; omega
          rw [ih f2' r hr1 hr2]

/-- `subColor` at a matching position: group 1 and the replacement are
emitted, scanning continues after the match. -/
theorem subColor_match {name s g1 h r : List Char} (col : List Char)
    (hm : matchVarDecl name s = some (g1, h, r)) :
    subColor name col s = g1 ++ col ++ subColor name col r := by
  cases s with
  | nil => rw [matchVarDecl_nil] at hm; cases hm
  | cons c cs =>
    have hlen := matchVarDecl_rest_length hm
    have hr : r.length ≤ cs.length := by simp at hlen; omega
    show subColorF name col (cs.length + 1) (c :: cs) = _
    rw [subColorF]
    simp only [hm]
    rw [subColorF_irrel name col cs.length r.length r hr le_rfl]
    rfl

/-- `subColor` at a non-matching position: keep the character, move on. -/
theorem subColor_nomatch {name : List Char} {c : Char} {cs : List Char} (col : List Char)
    (hm : matchVarDecl name (c :: cs) = none) :
    subColor name col (c :: cs) = c :: subColor name col cs := by
  show subColorF name col (cs.length + 1) (c :: cs) = _
  rw [subColorF]
  simp only [hm]
  rfl

/-- `subColor` passes unchanged over any block that contains no dash, when
the variable name starts with a dash. -/
theorem subColor_pass (n col : List Char) :
    ∀ (d r : List Char), (∀ c ∈ d, c ≠ '-') →
      subColor ('-' :: '-' :: n) col (d ++ r) = d ++ subColor ('-' :: '-' :: n) col r := by
  intro d
  induction d with
  | nil => intro r _; simp
  | cons x d ih =>
    intro r hall
    have hx : x ≠ '-' := hall x (by simp)
    rw [List.cons_append, subColor_nomatch col (matchVarDecl_head_ne (d ++ r) hx),
      ih r (fun c hc => hall c (by simp [hc]))]
    simp

/-- The fuel of `declValuesF` is irrelevant once it covers the input length. -/
theorem declValuesF_irrel (name : List Char) :
    ∀ (f1 f2 : Nat) (s : List Char), s.length ≤ f1 → s.length ≤ f2 →
      declValuesF name f1 s = declValuesF name f2 s := by
  intro f1
  induction f1 with
  | zero =>
    intro f2 s h1 _
    have hs : s = [] := List.length_eq_zero.mp (Nat.le_zero.mp h1)
    subst hs
    simp [declValuesF]
  | succ f ih =>
    intro f2 s h1 h2
    cases s with
    | nil => simp [declValuesF]
    | cons c cs =>
      cases f2 with
      | zero => simp at h2
      | succ f2' =>
        rw [declValuesF, declValuesF]
        cases hm : matchVarDecl name (c :: cs) with
        | none =>
          simp only [hm]
          have hc1 : cs.length ≤ f := by simp at h1; omega
          have hc2 : cs.length ≤ f2' := by simp at h2; omega
          rw [ih f2' cs hc1 hc2]
        | some g =>
          obtain ⟨g1, h, r⟩ := g
          simp only [hm]
          have hlen := matchVarDecl_rest_length hm
          have hr1 : r.length ≤ f := by simp at h1 hlen; omega
          have hr2 : r.length ≤ f2' := by simp at h2 hlen; omega
          rw [ih f2' r hr1 hr2]

/-- `declValues` at a matching position records the matched hex value. -/
theorem declValues_match {name s g1 h r : List Char}
    (hm : matchVarDecl name s = some (g1, h, r)) :
    declValues name s = h :: declValues name r := by
  cases s with
  | nil => rw [matchVarDecl_nil] at hm; cases hm
  | cons c cs =>
    have hlen := matchVarDecl_rest_length hm
    have hr : r.length ≤ cs.length := by simp at hlen; omega
    show declValuesF name (cs.length + 1) (c :: cs) = _
    rw [declValuesF]
    simp only [hm]
    rw [declValuesF_irrel name cs.length r.length r hr le_rfl]
    rfl

/-- `declValues` at a non-matching position records nothing. -/
theorem declValues_nomatch {name : List Char} {c : Char} {cs : List Char}
    (hm : matchVarDecl name (c :: cs) = none) :
    declValues name (c :: cs) = declValues name cs := by
  show declValuesF name (cs.length + 1) (c :: cs) = _
  rw [declValuesF]
  simp only [hm]
  rfl

/-- If the replacement color equals every value the file already declares
for `name`, the substitution is the identity. -/
theorem subColor_self (name col : List Char) :
    ∀ (fuel : Nat) (s : List Char), s.length ≤ fuel →
      (∀ v ∈ declValues name s, col = '#' :: v) → subColor name col s = s := by
  intro fuel
  induction fuel with
  | zero =>
    intro s h1 _
    have hs : s = [] := List.length_eq_zero.mp (Nat.le_zero.mp h1)
    subst hs
    rfl
  | succ f ih =>
    intro s h1 hv
    cases s with
    | nil => rfl
    | cons c cs =>
      cases hm : matchVarDecl name (c :: cs) with
      | none =>
        have hcs : cs.length ≤ f := by simp at h1; omega
        rw [subColor_nomatch col hm,
          ih cs hcs (fun v hv2 => hv v (by rw [declValues_nomatch hm]; exact hv2))]
      | some g =>
        obtain ⟨g1, h, r⟩ := g
        have hd := declValues_match hm
        have hcol : col = '#' :: h := hv h (by rw [hd]; simp)
        have hlen := matchVarDecl_rest_length hm
        have hr : r.length ≤ f := by simp at h1 hlen; omega
        obtain ⟨ws, hws, hg1, hh, hl, hs⟩ := matchVarDecl_eq_some hm
        rw [subColor_match col hm,
          ih r hr (fun v hv2 => hv v (by rw [hd]; simp [hv2])), hcol, hg1]
        rw [hs]
        simp

/-- Unfolding one entry of the mapping loop. -/
theorem applyMappingAux_cons (p : List Char × List Char)
    (M : List (List Char × List Char)) (acc : List Char × Bool) :
    applyMappingAux (p :: M) acc =
      applyMappingAux M
        (subColor p.1 p.2 acc.1, acc.2 || !(subColor p.1 p.2 acc.1 == acc.1)) := rfl

/-- If every entry's substitution fixes the current text, the whole loop
fixes the accumulator. -/
theorem applyMappingAux_fixed :
    ∀ (M : List (List Char × List Char)) (content : List Char) (b : Bool),
      (∀ p ∈ M, subColor p.1 p.2 content = content) →
      applyMappingAux M (content, b) = (content, b) := by
  intro M
  induction M with
  | nil => intro content b _; rfl
  | cons p M ih =>
    intro content b hfix
    rw [applyMappingAux_cons, hfix p (by simp)]
    simp only [beq_self_eq_true, Bool.not_true, Bool.or_false]
    exact ih content b (fun q hq => hfix q (by simp [hq]))

/-- The final text of the loop is the left fold of the substitutions. -/
theorem applyMappingAux_fst :
    ∀ (M : List (List Char × List Char)) (content : List Char) (b : Bool),
      (applyMappingAux M (content, b)).1 =
        M.foldl (fun c p => subColor p.1 p.2 c) content := by
  intro M
  induction M with
  | nil => intro content b; rfl
  | cons p M ih => intro content b; rw [applyMappingAux_cons]; exact ih _ _

/-- If the loop reports a change, some entry changed the evolving text. -/
theorem applyMappingAux_flag :
    ∀ (M : List (List Char × List Char)) (content : List Char) (b : Bool),
      (applyMappingAux M (content, b)).2 = true →
      b = true ∨ ∃ c0 p, p ∈ M ∧ subColor p.1 p.2 c0 ≠ c0 := by
  intro M
  induction M with
  | nil => intro content b hb; exact Or.inl hb
  | cons p M ih =>
    intro content b hb
    rw [applyMappingAux_cons] at hb
    rcases ih _ _ hb with hb2 | hex
    · rw [Bool.or_eq_true] at hb2
      rcases hb2 with hb2 | hb2
      · exact Or.inl hb2
      · refine Or.inr ⟨content, p, by simp, ?_⟩
        intro heq
        rw [heq] at hb2
        simp at hb2
    · obtain ⟨c0, q, hq, hne⟩ := hex
      exact Or.inr ⟨c0, q, by simp [hq], hne⟩

/-- Digits are neither dashes nor colons. -/
theorem isDigitChar_ne {c : Char} (hc : isDigitChar c = true) : c ≠ '-' ∧ c ≠ ':' := by
  constructor <;> rintro rfl <;> exact absurd hc (by decide)

/-- Whitespace characters are not dashes. -/
theorem isWsChar_ne_dash {c : Char} (hc : isWsChar c = true) : c ≠ '-' := by
  rintro rfl; exact absurd hc (by decide)

/-- Hex digits are not dashes. -/
theorem isHexChar_ne_dash {c : Char} (hc : isHexChar c = true) : c ≠ '-' := by
  rintro rfl; exact absurd hc (by decide)

/-- Case analysis on a recognised name. -/
theorem isRecognized_cases {n : List Char} (hn : isRecognized n = true) :
    (∃ ds, ds ≠ [] ∧ ds.all isDigitChar = true ∧ n = "color".toList ++ ds) ∨
      n = "background".toList ∨ n = "foreground".toList ∨ n = "cursor".toList := by
  rw [isRecognized] at hn
  rw [Bool.or_eq_true, Bool.or_eq_true, Bool.or_eq_true] at hn
  rcases hn with ((hc | hb) | hf) | hcur
  · left
    cases hd : dropPref "color".toList n with
    | none => rw [hd] at hc; cases hc
    | some ds =>
      rw [hd] at hc
      rw [Bool.and_eq_true] at hc
      refine ⟨ds, ?_, hc.2, dropPref_eq_some hd⟩
      simpa using hc.1
  · right; left; simpa using hb
  · right; right; left; simpa using hf
  · right; right; right; simpa using hcur

/-- A `color` name with digits is recognised. -/
theorem isRecognized_color {ds : List Char} (hne : ds ≠ [])
    (hall : ds.all isDigitChar = true) : isRecognized ("color".toList ++ ds) = true := by
  rw [isRecognized, dropPref_refold]
  simp [hne, hall]

/-- No character of a recognised name is a dash or a colon. -/
theorem isRecognized_chars {n : List Char} (hn : isRecognized n = true) :
    ∀ c ∈ n, c ≠ '-' ∧ c ≠ ':' := by
  rcases isRecognized_cases hn with ⟨ds, _, hall, hds⟩ | h | h | h
  · subst hds
    intro c hc
    rcases List.mem_append.mp hc with hc2 | hc2
    · exact (show ∀ x ∈ "color".toList, x ≠ '-' ∧ x ≠ ':' by decide) c hc2
    · exact isDigitChar_ne (by
        rw [List.all_eq_true] at hall
        exact hall c hc2)
  · subst h
    intro c hc
    exact (show ∀ x ∈ "background".toList, x ≠ '-' ∧ x ≠ ':' by decide) c hc
  · subst h
    intro c hc
    exact (show ∀ x ∈ "foreground".toList, x ≠ '-' ∧ x ≠ ':' by decide) c hc
  · subst h
    intro c hc
    exact (show ∀ x ∈ "cursor".toList, x ≠ '-' ∧ x ≠ ':' by decide) c hc

/-- A recognised name starts with a character that is not a dash. -/
theorem isRecognized_head {n : List Char} (hn : isRecognized n = true) :
    ∃ c t, n = c :: t ∧ c ≠ '-' := by
  rcases isRecognized_cases hn with ⟨ds, _, _, hds⟩ | h | h | h
  · exact ⟨'c', "olor".toList ++ ds, by simp [hds], by decide⟩
  · exact ⟨'b', "ackground".toList, by simp [h], by decide⟩
  · exact ⟨'f', "oreground".toList, by simp [h], by decide⟩
  · exact ⟨'c', "ursor".toList, by simp [h], by decide⟩

/-- No character of a well-formed declaration body (name, colon, whitespace,
hash, hex value) is a dash. -/
theorem declBody_noDash {m ws h : List Char} (hm : isRecognized m = true)
    (hws : ws.all isWsChar = true) (hh : h.all isHexChar = true) :
    ∀ c ∈ m ++ ':' :: (ws ++ '#' :: h), c ≠ '-' := by
  intro c hc
  rcases List.mem_append.mp hc with hc | hc
  · exact (isRecognized_chars hm c hc).1
  · rcases List.mem_cons.mp hc with rfl | hc
    · decide
    · rcases List.mem_append.mp hc with hc | hc
      · exact isWsChar_ne_dash (by rw [List.all_eq_true] at hws; exact hws c hc)
      · rcases List.mem_cons.mp hc with rfl | hc
        · decide
        · exact isHexChar_ne_dash (by rw [List.all_eq_true] at hh; exact hh c hc)

/-- Decomposition of a successful `color\d+` name parse. -/
theorem parseColorName_eq_some {t n r : List Char}
    (hp : parseColorName t = some (n, r)) :
    ∃ ds, ds ≠ [] ∧ ds.all isDigitChar = true ∧
      n = "color".toList ++ ds ∧ t = n ++ r := by
  cases hd : dropPref "color".toList t with
  | none =>
    simp only [parseColorName, hd] at hp
    exact Option.noConfusion hp
  | some t1 =>
    cases t1 with
    | nil =>
      simp only [parseColorName, hd] at hp
      exact Option.noConfusion hp
    | cons d t1' =>
      by_cases hc : isDigitChar d = true
      · simp only [parseColorName, hd, if_pos hc, Option.some.injEq, Prod.mk.injEq] at hp
        obtain ⟨e1, e2⟩ := hp
        refine ⟨(d :: t1').takeWhile isDigitChar, ?_, all_takeWhile (d :: t1'), e1.symm, ?_⟩
        · rw [List.takeWhile_cons, if_pos hc]
          simp
        · have ht : t = "color".toList ++ (d :: t1') := dropPref_eq_some hd
          rw [ht, ← e1, ← e2]
          conv_lhs => rw [← List.takeWhile_append_dropWhile (p := isDigitChar) (l := d :: t1')]
          simp
      · simp only [parseColorName, hd, if_neg hc] at hp
        exact Option.noConfusion hp

/-- Refolding a `color\d+` name parse. -/
theorem parseColorName_refold {ds : List Char} (u : List Char) (hne : ds ≠ [])
    (hall : ds.all isDigitChar = true) :
    parseColorName ("color".toList ++ (ds ++ ':' :: u)) =
      some ("color".toList ++ ds, ':' :: u) := by
  cases ds with
  | nil => exact absurd rfl hne
  | cons d ds' =>
    rw [List.all_cons, Bool.and_eq_true] at hall
    have hwd := takeWhile_all_append (p := isDigitChar) (d :: ds') u ':'
      (by rw [List.all_cons, Bool.and_eq_true]; exact hall) (by decide)
    rw [parseColorName, dropPref_refold]
    simp only [List.cons_append, if_pos hall.1]
    rw [← List.cons_append, hwd.1, hwd.2]

/-- Decomposition of a successful name-alternation parse. -/
theorem parseCssName_eq_some {t n r : List Char}
    (hp : parseCssName t = some (n, r)) :
    isRecognized n = true ∧ t = n ++ r := by
  cases hc : parseColorName t with
  | some pr =>
    obtain ⟨n0, r0⟩ := pr
    simp only [parseCssName, hc, Option.some.injEq, Prod.mk.injEq] at hp
    obtain ⟨e1, e2⟩ := hp
    subst e1 e2
    obtain ⟨ds, hne, hall, hn, ht⟩ := parseColorName_eq_some hc
    exact ⟨by rw [hn]; exact isRecognized_color hne hall, ht⟩
  | none =>
    cases hb : dropPref "background".toList t with
    | some r0 =>
      simp only [parseCssName, hc, hb, Option.some.injEq, Prod.mk.injEq] at hp
      obtain ⟨e1, e2⟩ := hp
      subst e1 e2
      exact ⟨by rw [isRecognized]; simp, dropPref_eq_some hb⟩
    | none =>
      cases hf : dropPref "foreground".toList t with
      | some r0 =>
        simp only [parseCssName, hc, hb, hf, Option.some.injEq, Prod.mk.injEq] at hp
        obtain ⟨e1, e2⟩ := hp
        subst e1 e2
        exact ⟨by rw [isRecognized]; simp, dropPref_eq_some hf⟩
      | none =>
        cases hcur : dropPref "cursor".toList t with
        | some r0 =>
          simp only [parseCssName, hc, hb, hf, hcur, Option.some.injEq, Prod.mk.injEq] at hp
          obtain ⟨e1, e2⟩ := hp
          subst e1 e2
          exact ⟨by rw [isRecognized]; simp, dropPref_eq_some hcur⟩
        | none =>
          simp only [parseCssName, hc, hb, hf, hcur] at hp
          exact Option.noConfusion hp

/-- Refolding the name alternation on a recognised name followed by a colon. -/
theorem parseCssName_refold {n : List Char} (u : List Char) (hn : isRecognized n = true) :
    parseCssName (n ++ ':' :: u) = some (n, ':' :: u) := by
  rcases isRecognized_cases hn with ⟨ds, hne, hall, hds⟩ | h | h | h
  · subst hds
    have hp := parseColorName_refold (u := u) hne hall
    simp only [List.append_assoc, parseCssName, hp]
  · subst h
    have h1 : parseColorName ("background".toList ++ ':' :: u) = none := rfl
    have h2 := dropPref_refold "background".toList (':' :: u)
    simp only [parseCssName, h1, h2]
  · subst h
    have h1 : parseColorName ("foreground".toList ++ ':' :: u) = none := rfl
    have h2 : dropPref "background".toList ("foreground".toList ++ ':' :: u) = none := rfl
    have h3 := dropPref_refold "foreground".toList (':' :: u)
    simp only [parseCssName, h1, h2, h3]
  · subst h
    have h1 : parseColorName ("cursor".toList ++ ':' :: u) = none := rfl
    have h2 : dropPref "background".toList ("cursor".toList ++ ':' :: u) = none := rfl
    have h3 : dropPref "foreground".toList ("cursor".toList ++ ':' :: u) = none := rfl
    have h4 := dropPref_refold "cursor".toList (':' :: u)
    simp only [parseCssName, h1, h2, h3, h4]

/-- Decomposition of a successful match of the reader pattern. -/
theorem parseDecl_eq_some {s n ws h r : List Char}
    (hp : parseDecl s = some (n, ws, h, r)) :
    isRecognized n = true ∧ ws.all isWsChar = true ∧ h.all isHexChar = true ∧
      h.length = 6 ∧ s = '-' :: '-' :: (n ++ ':' :: (ws ++ '#' :: (h ++ r))) := by
  cases s with
  | nil => exact Option.noConfusion (by simpa only [parseDecl] using hp)
  | cons c1 s' =>
    cases s' with
    | nil => exact Option.noConfusion (by simpa only [parseDecl] using hp)
    | cons c2 t =>
      by_cases h12 : c1 = '-' ∧ c2 = '-'
      · obtain ⟨rfl, rfl⟩ := h12
        cases hn : parseCssName t with
        | none =>
          simp only [parseDecl, hn, if_pos (And.intro rfl rfl)] at hp
          exact Option.noConfusion hp
        | some pr =>
          obtain ⟨n0, t2⟩ := pr
          cases t2 with
          | nil =>
            simp only [parseDecl, hn, if_pos (And.intro rfl rfl)] at hp
            exact Option.noConfusion hp
          | cons c3 t3 =>
            by_cases h3 : c3 = ':'
            · subst h3
              cases hx : hexAt (t3.dropWhile isWsChar) with
              | none =>
                simp only [parseDecl, hn, hx, if_pos (And.intro rfl rfl), if_pos rfl] at hp
                exact Option.noConfusion hp
              | some q =>
                obtain ⟨h0, r0⟩ := q
                simp [parseDecl, hn, hx] at hp
                obtain ⟨e1, e2, e3, e4⟩ := hp
                subst e1 e2 e3 e4
                obtain ⟨hrec, ht⟩ := parseCssName_eq_some hn
                obtain ⟨d1, d2, d3⟩ := hexAt_eq_some hx
                refine ⟨hrec, all_takeWhile t3, d2, d3, ?_⟩
                have ht3 : t3 = t3.takeWhile isWsChar ++ '#' :: (h0 ++ r0) := by
                  conv_lhs =>
                    rw [← List.takeWhile_append_dropWhile (p := isWsChar) (l := t3)]
                  rw [d1]
                rw [ht]
                conv_lhs => rw [ht3]
            · simp only [parseDecl, hn, if_pos (And.intro rfl rfl), if_neg h3] at hp
              exact Option.noConfusion hp
      · simp only [parseDecl, if_neg h12] at hp
        exact Option.noConfusion hp

/-- Refolding a match of the reader pattern from its parts. -/
theorem parseDecl_refold {n ws h : List Char} (r : List Char)
    (hn : isRecognized n = true) (hws : ws.all isWsChar = true)
    (hh : h.all isHexChar = true) (hl : h.length = 6) :
    parseDecl ('-' :: '-' :: (n ++ ':' :: (ws ++ '#' :: (h ++ r)))) =
      some (n, ws, h, r) := by
  have hp := parseCssName_refold (u := ws ++ '#' :: (h ++ r)) hn
  have hwd := takeWhile_all_append ws (h ++ r) '#' hws (by decide)
  simp only [parseDecl, if_pos (And.intro rfl rfl), hp, if_pos rfl, hwd.1, hwd.2,
    hexAt_refold h r hh hl]
  simp

/-- A successful reader match consumes at least ten characters. -/
theorem parseDecl_rest_length {s n ws h r : List Char}
    (hp : parseDecl s = some (n, ws, h, r)) : r.length + 10 ≤ s.length := by
  obtain ⟨_, _, _, hl, hs⟩ := parseDecl_eq_some hp
  rw [hs]
  simp [hl]
  omega

/-- A reader match at a position is a patch-pattern match for the matched
name prefixed with the two dashes. -/
theorem matchVarDecl_of_parseDecl {s n ws h r : List Char}
    (hp : parseDecl s = some (n, ws, h, r)) :
    matchVarDecl ('-' :: '-' :: n) s = some (('-' :: '-' :: n) ++ ':' :: ws, h, r) := by
  obtain ⟨_, hws, hh, hl, hs⟩ := parseDecl_eq_some hp
  subst hs
  have hr := matchVarDecl_refold ('-' :: '-' :: n) ws h r hws hh hl
  simpa using hr

/-- A patch-pattern match for a dashed recognised name is a reader match. -/
theorem parseDecl_of_matchVarDecl {n s g1 h r : List Char}
    (hrec : isRecognized n = true)
    (hm : matchVarDecl ('-' :: '-' :: n) s = some (g1, h, r)) :
    ∃ ws, g1 = ('-' :: '-' :: n) ++ ':' :: ws ∧ parseDecl s = some (n, ws, h, r) := by
  obtain ⟨ws, hws, hg1, hh, hl, hs⟩ := matchVarDecl_eq_some hm
  refine ⟨ws, hg1, ?_⟩
  subst hs
  have hr := parseDecl_refold r hrec hws hh hl
  simpa using hr

/-- The fuel of `scanF` is irrelevant once it covers the input length. -/
theorem scanF_irrel :
    ∀ (f1 f2 : Nat) (s : List Char), s.length ≤ f1 → s.length ≤ f2 →
      scanF f1 s = scanF f2 s := by
  intro f1
  induction f1 with
  | zero =>
    intro f2 s h1 _
    have hs : s = [] := List.length_eq_zero.mp (Nat.le_zero.mp h1)
    subst hs
    simp [scanF]
  | succ f ih =>
    intro f2 s h1 h2
    cases s with
    | nil => simp [scanF]
    | cons c cs =>
      cases f2 with
      | zero => simp at h2
      | succ f2' =>
        rw [scanF, scanF]
        cases hm : parseDecl (c :: cs) with
        | none =>
          simp only [hm]
          have hc1 : cs.length ≤ f := by simp at h1; omega
          have hc2 : cs.length ≤ f2' := by simp at h2; omega
          rw [ih f2' cs hc1 hc2]
        | some g =>
          obtain ⟨n, ws, h, r⟩ := g
          simp only [hm]
          have hlen := parseDecl_rest_length hm
          have hr1 : r.length ≤ f := by simp at h1 hlen; omega
          have hr2 : r.length ≤ f2' := by simp at h2 hlen; omega
          rw [ih f2' r hr1 hr2]

/-- `scan` at a reader match records the declaration and continues after it. -/
theorem scan_match {s n ws h r : List Char} (hm : parseDecl s = some (n, ws, h, r)) :
    scan s = .decl n ws h :: scan r := by
  cases s with
  | nil =>
    obtain ⟨_, _, _, _, hs⟩ := parseDecl_eq_some hm
    cases hs
  | cons c cs =>
    have hlen := parseDecl_rest_length hm
    have hr : r.length ≤ cs.length := by simp at hlen; omega
    show scanF (cs.length + 1) (c :: cs) = _
    rw [scanF]
    simp only [hm]
    rw [scanF_irrel cs.length r.length r hr le_rfl]
    rfl

/-- `scan` at a non-matching position records the character and moves on. -/
theorem scan_nomatch {c : Char} {cs : List Char} (hm : parseDecl (c :: cs) = none) :
    scan (c :: cs) = .ch c :: scan cs := by
  show scanF (cs.length + 1) (c :: cs) = _
  rw [scanF]
  simp only [hm]
  rfl

/-- `joinSegs` distributes over cons. -/
theorem joinSegs_cons (a : Seg) (l : List Seg) :
    joinSegs (a :: l) = segText a ++ joinSegs l := by
  simp [joinSegs]

/-- The scan decomposes its input: joining the segments gives it back. -/
theorem joinSegs_scan :
    ∀ (fuel : Nat) (s : List Char), s.length ≤ fuel → joinSegs (scan s) = s := by
  intro fuel
  induction fuel with
  | zero =>
    intro s h1
    have hs : s = [] := List.length_eq_zero.mp (Nat.le_zero.mp h1)
    subst hs
    rfl
  | succ f ih =>
    intro s h1
    cases s with
    | nil => rfl
    | cons c cs =>
      cases hm : parseDecl (c :: cs) with
      | none =>
        have hc : cs.length ≤ f := by simp at h1; omega
        rw [scan_nomatch hm, joinSegs_cons, ih cs hc]
        rfl
      | some g =>
        obtain ⟨n, ws, h, r⟩ := g
        have hlen := parseDecl_rest_length hm
        have hr : r.length ≤ f := by simp at h1 hlen; omega
        rw [scan_match hm, joinSegs_cons, ih r hr]
        obtain ⟨_, _, _, _, hs⟩ := parseDecl_eq_some hm
        rw [hs, segText]
        simp

/-- Every segment the scan produces is well-formed. -/
theorem scan_wf :
    ∀ (fuel : Nat) (s : List Char), s.length ≤ fuel → ∀ seg ∈ scan s, wfSeg seg := by
  intro fuel
  induction fuel with
  | zero =>
    intro s h1
    have hs : s = [] := List.length_eq_zero.mp (Nat.le_zero.mp h1)
    subst hs
    intro seg hseg
    cases hseg
  | succ f ih =>
    intro s h1 seg hseg
    cases s with
    | nil => cases hseg
    | cons c cs =>
      cases hm : parseDecl (c :: cs) with
      | none =>
        rw [scan_nomatch hm] at hseg
        rcases List.mem_cons.mp hseg with rfl | hseg
        · trivial
        · exact ih cs (by simp at h1; omega) seg hseg
      | some g =>
        obtain ⟨n, ws, h, r⟩ := g
        rw [scan_match hm] at hseg
        rcases List.mem_cons.mp hseg with rfl | hseg
        · obtain ⟨hrec, hws, hh, hl, _⟩ := parseDecl_eq_some hm
          exact ⟨hrec, hws, hh, hl⟩
        · have hlen := parseDecl_rest_length hm
          exact ih r (by simp at h1 hlen; omega) seg hseg

/-- `joinSegs` distributes over append. -/
theorem joinSegs_append (A B : List Seg) :
    joinSegs (A ++ B) = joinSegs A ++ joinSegs B := by
  simp [joinSegs]

/-- Joining pure character segments gives back the characters. -/
theorem joinSegs_chs : ∀ (Q : List Char), joinSegs (Q.map Seg.ch) = Q := by
  intro Q
  induction Q with
  | nil => rfl
  | cons q Q ih => rw [List.map_cons, joinSegs_cons, ih]; rfl

/-- If a dash-free text is an initial part of a joined segment list, it is
covered by pure character segments. -/
theorem cover_chs :
    ∀ (P : List Char) (T : List Seg) (r : List Char),
      (∀ c ∈ P, c ≠ '-') → joinSegs T = P ++ r →
      ∃ T2, T = P.map Seg.ch ++ T2 ∧ joinSegs T2 = r := by
  intro P
  induction P with
  | nil => intro T r _ hj; exact ⟨T, by simp, by simpa using hj⟩
  | cons p P ih =>
    intro T r hall hj
    cases T with
    | nil => simp [joinSegs] at hj
    | cons a T' =>
      cases a with
      | decl n ws h =>
        rw [joinSegs_cons, segText] at hj
        simp only [List.cons_append] at hj
        injection hj with e1 _
        exact absurd e1.symm (hall p (by simp))
      | ch c =>
        rw [joinSegs_cons, segText] at hj
        simp only [List.singleton_append, List.cons_append] at hj
        injection hj with e1 e2
        obtain ⟨T2, hT, hj2⟩ := ih T' r (fun x hx => hall x (by simp [hx])) e2
        exact ⟨T2, by simp [hT, e1], hj2⟩

/-- Inversion of `transfSeg` along a run of character segments. -/
theorem map_transf_eq_chs {f : List Char → List Char → List Char} :
    ∀ (Q : List Char) (S T2 : List Seg),
      S.map (transfSeg f) = Q.map Seg.ch ++ T2 →
      ∃ S2, S = Q.map Seg.ch ++ S2 ∧ S2.map (transfSeg f) = T2 := by
  intro Q
  induction Q with
  | nil => intro S T2 hm; exact ⟨S, by simp, by simpa using hm⟩
  | cons q Q ih =>
    intro S T2 hm
    cases S with
    | nil => simp at hm
    | cons a S' =>
      cases a with
      | decl n ws h => simp [transfSeg] at hm
      | ch c =>
        rw [List.map_cons, transfSeg] at hm
        simp only [List.map_cons, List.cons_append] at hm
        injection hm with e1 e2
        have ec : c = q := Seg.ch.inj e1
        obtain ⟨S2, hS, hT⟩ := ih S' T2 e2
        exact ⟨S2, by simp [hS, ec], hT⟩

/-- The reader pattern still fails at a failing position after the hex
values of later declarations have been rewritten. -/
theorem parseDecl_transf_none {f : List Char → List Char → List Char} {c : Char}
    {cs : List Char} (hn : parseDecl (c :: cs) = none) :
    parseDecl (c :: joinSegs ((scan cs).map (transfSeg f))) = none := by
  cases hp : parseDecl (c :: joinSegs ((scan cs).map (transfSeg f))) with
  | none => rfl
  | some g =>
    exfalso
    obtain ⟨n, ws, h, r⟩ := g
    obtain ⟨hrec, hws, hh, hl, hs⟩ := parseDecl_eq_some hp
    injection hs with e1 e2
    have hQr : n ++ ':' :: (ws ++ '#' :: (h ++ r)) =
        (n ++ ':' :: (ws ++ '#' :: h)) ++ r := by simp
    rw [hQr] at e2
    have hQnd : ∀ x ∈ n ++ ':' :: (ws ++ '#' :: h), x ≠ '-' :=
      declBody_noDash hrec hws hh
    cases hT : (scan cs).map (transfSeg f) with
    | nil => rw [hT] at e2; simp [joinSegs] at e2
    | cons a T' =>
      cases a with
      | decl m ws2 h2 =>
        rw [hT, joinSegs_cons, segText] at e2
        simp only [List.cons_append] at e2
        injection e2 with _ f2
        obtain ⟨c0, t0, hn0, hc0⟩ := isRecognized_head hrec
        rw [hn0] at f2
        simp only [List.cons_append] at f2
        injection f2 with g1 _
        exact hc0 g1.symm
      | ch d =>
        rw [hT, joinSegs_cons, segText] at e2
        simp only [List.singleton_append] at e2
        injection e2 with f1 f2
        obtain ⟨T2, hT2, _⟩ :=
          cover_chs (n ++ ':' :: (ws ++ '#' :: h)) T' r hQnd f2
        rw [hT2] at hT
        cases hS : scan cs with
        | nil => rw [hS] at hT; simp at hT
        | cons b S' =>
          rw [hS, List.map_cons] at hT
          injection hT with u1 u2
          have hb : b = Seg.ch d := by
            cases b with
            | decl => simp [transfSeg] at u1
            | ch e => rw [transfSeg] at u1; rw [Seg.ch.inj u1]
          obtain ⟨S2, hS2, _⟩ := map_transf_eq_chs (n ++ ':' :: (ws ++ '#' :: h)) S' T2 u2
          have hjoin := joinSegs_scan cs.length cs le_rfl
          rw [hS, hb, hS2, joinSegs_cons, segText, joinSegs_append, joinSegs_chs] at hjoin
          have hcs : cs = '-' :: (n ++ ':' :: (ws ++ '#' :: (h ++ joinSegs S2))) := by
            rw [← hjoin, ← f1]
            simp
          have hrefold := parseDecl_refold (joinSegs S2) hrec hws hh hl
          rw [e1, hcs] at hn
          rw [hn] at hrefold
          cases hrefold

/-- Rewriting the hex values of the declarations (through any well-formed
value transformation) does not change how the text scans: the scan of the
rewritten text is the rewritten scan. -/
theorem scan_joinT {f : List Char → List Char → List Char}
    (hf : ∀ n h, h.all isHexChar = true → h.length = 6 →
      (f n h).all isHexChar = true ∧ (f n h).length = 6) :
    ∀ (fuel : Nat) (u : List Char), u.length ≤ fuel →
      scan (joinSegs ((scan u).map (transfSeg f))) = (scan u).map (transfSeg f) := by
  intro fuel
  induction fuel with
  | zero =>
    intro u h1
    have hu : u = [] := List.length_eq_zero.mp (Nat.le_zero.mp h1)
    subst hu
    rfl
  | succ f' ih =>
    intro u h1
    cases u with
    | nil => rfl
    | cons c cs =>
      cases hm : parseDecl (c :: cs) with
      | some g =>
        obtain ⟨n, ws, h, r⟩ := g
        rw [scan_match hm, List.map_cons, transfSeg, joinSegs_cons, segText]
        obtain ⟨hrec, hws, hh, hl, _⟩ := parseDecl_eq_some hm
        obtain ⟨hfh, hfl⟩ := hf n h hh hl
        have href := parseDecl_refold (r := joinSegs ((scan r).map (transfSeg f)))
          hrec hws hfh hfl
        have htext : ('-' :: '-' :: (n ++ ':' :: (ws ++ '#' :: f n h))) ++
            joinSegs ((scan r).map (transfSeg f)) =
            '-' :: '-' :: (n ++ ':' :: (ws ++ '#' ::
              (f n h ++ joinSegs ((scan r).map (transfSeg f))))) := by
          simp
        have hlen := parseDecl_rest_length hm
        rw [htext, scan_match href, ih r (by simp at h1 hlen; omega)]
      | none =>
        rw [scan_nomatch hm, List.map_cons, transfSeg, joinSegs_cons, segText]
        simp only [List.singleton_append]
        have hnone := parseDecl_transf_none (f := f) hm
        rw [scan_nomatch hnone, ih cs (by simp at h1; omega)]

/-- `re.sub` for a dashed recognised name acts segment-wise on the scan of
the text: it rewrites exactly the hex values of that name's declarations
and leaves every other character alone. -/
theorem subColor_scan_eq {n : List Char} (h' : List Char)
    (hrec : isRecognized n = true) :
    ∀ (fuel : Nat) (u : List Char), u.length ≤ fuel →
      subColor ('-' :: '-' :: n) ('#' :: h') u =
        joinSegs ((scan u).map (transfSeg (fun m hh => if m = n then h' else hh))) := by
  intro fuel
  induction fuel with
  | zero =>
    intro u h1
    have hu : u = [] := List.length_eq_zero.mp (Nat.le_zero.mp h1)
    subst hu
    rfl
  | succ f' ih =>
    intro u h1
    cases u with
    | nil => rfl
    | cons c cs =>
      cases hm : parseDecl (c :: cs) with
      | some g =>
        obtain ⟨m, ws, h, r⟩ := g
        rw [scan_match hm, List.map_cons, transfSeg, joinSegs_cons, segText]
        have hlen := parseDecl_rest_length hm
        by_cases hmn : m = n
        · subst hmn
          have hmv := matchVarDecl_of_parseDecl hm
          rw [subColor_match ('#' :: h') hmv, ih r (by simp at h1 hlen; omega),
            if_pos rfl]
          simp
        · have hnomatch : matchVarDecl ('-' :: '-' :: n) (c :: cs) = none := by
            cases hmv : matchVarDecl ('-' :: '-' :: n) (c :: cs) with
            | none => rfl
            | some g2 =>
              obtain ⟨g1, h2, r2⟩ := g2
              obtain ⟨ws2, _, hpd⟩ := parseDecl_of_matchVarDecl hrec hmv
              rw [hm] at hpd
              have e := Option.some.inj hpd
              rw [Prod.mk.injEq] at e
              exact absurd e.1 hmn
          obtain ⟨hrecm, hws, hh, hl, hs⟩ := parseDecl_eq_some hm
          rw [if_neg hmn, hs]
          have h1m : matchVarDecl ('-' :: '-' :: n)
              ('-' :: '-' :: (m ++ ':' :: (ws ++ '#' :: (h ++ r)))) = none := hs ▸ hnomatch
          obtain ⟨c0, t0, hm0, hc0⟩ := isRecognized_head hrecm
          have h2m : matchVarDecl ('-' :: '-' :: n)
              ('-' :: (m ++ ':' :: (ws ++ '#' :: (h ++ r)))) = none := by
            rw [hm0, List.cons_append]
            exact matchVarDecl_snd_ne _ hc0
          rw [subColor_nomatch _ h1m, subColor_nomatch _ h2m]
          have hX : m ++ ':' :: (ws ++ '#' :: (h ++ r)) =
              (m ++ ':' :: (ws ++ '#' :: h)) ++ r := by simp
          rw [hX, subColor_pass n ('#' :: h') _ r (declBody_noDash hrecm hws hh),
            ih r (by simp at h1 hlen; omega)]
          simp
      | none =>
        rw [scan_nomatch hm, List.map_cons, transfSeg, joinSegs_cons, segText]
        have hnomatch : matchVarDecl ('-' :: '-' :: n) (c :: cs) = none := by
          cases hmv : matchVarDecl ('-' :: '-' :: n) (c :: cs) with
          | none => rfl
          | some g2 =>
            obtain ⟨g1, h2, r2⟩ := g2
            obtain ⟨ws2, _, hpd⟩ := parseDecl_of_matchVarDecl hrec hmv
            rw [hm] at hpd
            cases hpd
        rw [subColor_nomatch _ hnomatch, ih cs (by simp at h1; omega)]
        simp

/-- Lookup after a dict assignment. -/
theorem dlookup_dinsert {α β : Type} [DecidableEq α] :
    ∀ (d : List (α × β)) (k : α) (v : β) (k' : α),
      dlookup (dinsert d k v) k' = if k' = k then some v else dlookup d k' := by
  intro d
  induction d with
  | nil => intro k v k'; simp [dinsert, dlookup]
  | cons p d ih =>
    intro k v k'
    obtain ⟨k0, v0⟩ := p
    by_cases hk : k = k0
    · subst hk
      rw [dinsert, if_pos rfl]
      by_cases h' : k' = k
      · rw [dlookup, if_pos h', if_pos h']
      · rw [dlookup, if_neg h', if_neg h', dlookup, if_neg h']
    · rw [dinsert, if_neg hk]
      by_cases h' : k' = k0
      · have hne : ¬ k' = k := by
          intro he
          exact hk (he ▸ h')
        rw [dlookup, if_pos h', if_neg hne, dlookup, if_pos h']
      · rw [dlookup, if_neg h', ih, dlookup, if_neg h']

/-- A key that is not among the first components is not found. -/
theorem dlookup_eq_none {α β : Type} [DecidableEq α] :
    ∀ (d : List (α × β)) (k : α), k ∉ d.map Prod.fst → dlookup d k = none := by
  intro d
  induction d with
  | nil => intro k _; rfl
  | cons p d ih =>
    intro k hk
    obtain ⟨k0, v0⟩ := p
    rw [List.map_cons] at hk
    rw [dlookup, if_neg (by intro he; subst he; exact hk (List.mem_cons_self _ _))]
    exact ih k (fun hm => hk (List.mem_cons_of_mem _ hm))

/-- With distinct keys, membership determines the lookup. -/
theorem dlookup_of_mem_nodup {α β : Type} [DecidableEq α] :
    ∀ (d : List (α × β)) (k : α) (v : β),
      (k, v) ∈ d → (d.map Prod.fst).Nodup → dlookup d k = some v := by
  intro d
  induction d with
  | nil => intro k v hm _; cases hm
  | cons p d ih =>
    intro k v hm hnd
    obtain ⟨k0, v0⟩ := p
    rcases List.mem_cons.mp hm with he | hm2
    · obtain ⟨e1, e2⟩ := Prod.mk.inj he
      rw [dlookup, if_pos e1, e2]
    · have hk : ¬ k = k0 := by
        intro he
        subst he
        rw [List.map_cons, List.nodup_cons] at hnd
        exact hnd.1 (List.mem_map.mpr ⟨(k, v), hm2, rfl⟩)
      rw [dlookup, if_neg hk]
      exact ih k v hm2 (by rw [List.map_cons, List.nodup_cons] at hnd; exact hnd.2)

/-- Applying the whole mapping rewrites the scan segment-wise through
`mappingHex`: each declaration of a mapped name gets that entry's digits,
every other declaration and every other character is untouched. -/
theorem scan_foldl_subColor :
    ∀ (M : List (List Char × List Char)) (content : List Char),
      (∀ p ∈ M, wfEntry p) → (M.map Prod.fst).Nodup →
      scan (M.foldl (fun c p => subColor p.1 p.2 c) content) =
        (scan content).map (transfSeg (mappingHex M)) := by
  intro M
  induction M with
  | nil =>
    intro content _ _
    have hid : ∀ seg, transfSeg (mappingHex []) seg = seg := by
      intro seg
      cases seg <;> simp [transfSeg, mappingHex, dlookup]
    suffices hmap : ∀ L : List Seg, L.map (transfSeg (mappingHex [])) = L by
      rw [List.foldl_nil, hmap]
    intro L
    induction L with
    | nil => rfl
    | cons a L ihl => rw [List.map_cons, hid a, ihl]
  | cons p M' ihM =>
    intro content hwf hnd
    obtain ⟨n0, h0, hrec0, hk, hv, hall0, hlen0⟩ := hwf p (by simp)
    have hf1 : ∀ m hh, hh.all isHexChar = true → hh.length = 6 →
        ((fun m hh => if m = n0 then h0 else hh) m hh).all isHexChar = true ∧
          ((fun m hh => if m = n0 then h0 else hh) m hh).length = 6 := by
      intro m hh hh1 hh2
      by_cases hm : m = n0
      · simp [hm, hall0, hlen0]
      · simp [hm, hh1, hh2]
    have hstep := subColor_scan_eq (n := n0) h0 hrec0 content.length content le_rfl
    rw [List.foldl_cons, hk, hv, hstep]
    have hnd' : (M'.map Prod.fst).Nodup := by
      rw [List.map_cons, List.nodup_cons] at hnd
      exact hnd.2
    have hp1 : p.1 ∉ M'.map Prod.fst := by
      rw [List.map_cons, List.nodup_cons] at hnd
      exact hnd.1
    rw [ihM _ (fun q hq => hwf q (by simp [hq])) hnd',
      scan_joinT hf1 content.length content le_rfl, List.map_map]
    apply List.map_congr_left
    intro seg _
    cases seg with
    | ch c => rfl
    | decl m ws hh =>
      simp only [Function.comp_apply, transfSeg]
      congr 1
      by_cases hm : m = n0
      · subst hm
        rw [if_pos rfl]
        have hnot : dlookup M' ('-' :: '-' :: m) = none :=
          dlookup_eq_none M' _ (hk ▸ hp1)
        rw [mappingHex, hnot, mappingHex, dlookup, if_pos hk.symm, hv]
        rfl
      · rw [if_neg hm]
        have hne : ¬ ('-' :: '-' :: m) = p.1 := by
          rw [hk]
          intro he
          injection he with _ he2
          injection he2 with _ he3
          exact hm he3
        rw [mappingHex, mappingHex, dlookup, if_neg hne]

/-- `find?` over an append scans the left part first. -/
theorem find?_append {α : Type} (p : α → Bool) :
    ∀ (l1 l2 : List α),
      (l1 ++ l2).find? p =
        (match l1.find? p with
         | some x => some x
         | none => l2.find? p) := by
  intro l1
  induction l1 with
  | nil => intro l2; rfl
  | cons a l1 ih =>
    intro l2
    by_cases ha : p a = true
    · rw [List.cons_append, List.find?_cons_of_pos _ ha, List.find?_cons_of_pos _ ha]
    · rw [Bool.not_eq_true] at ha
      rw [List.cons_append, List.find?_cons_of_neg _ (by simp [ha]),
        List.find?_cons_of_neg _ (by simp [ha]), ih]

/-- Lookup after folding dict assignments: the last assignment of a key
wins; keys never assigned fall through to the initial dict. -/
theorem dlookup_foldl_dinsert {α β : Type} [DecidableEq α] :
    ∀ (l : List (α × β)) (d : List (α × β)) (k : α),
      dlookup (l.foldl (fun d p => dinsert d p.1 p.2) d) k =
        (match l.reverse.find? (fun p => decide (p.1 = k)) with
         | some p => some p.2
         | none => dlookup d k) := by
  intro l
  induction l with
  | nil => intro d k; rfl
  | cons p0 l ih =>
    intro d k
    rw [List.foldl_cons, ih, List.reverse_cons, find?_append]
    cases hf : l.reverse.find? (fun p => decide (p.1 = k)) with
    | some q => rfl
    | none =>
      by_cases hk : p0.1 = k
      · simp [List.find?_cons, hk, dlookup_dinsert]
      · simp [List.find?_cons, hk, dlookup_dinsert, Ne.symm hk]

/-- Lookup in the dict built by `read_css_variables`: the value of the last
match for the key, `none` when the key never matches. -/
theorem read_css_lookup (s k : List Char) :
    dlookup (read_css_variables s) k =
      (match (cssMatches s).reverse.find? (fun p => decide (p.1 = k)) with
       | some p => some p.2
       | none => none) := by
  rw [read_css_variables, dlookup_foldl_dinsert]
  cases (cssMatches s).reverse.find? (fun p => decide (p.1 = k)) <;> rfl

/-- If some match has the key and all matches of that key agree on a value,
the reader returns that value for the key. -/
theorem dlookup_read_css_of_all (s k : List Char) (v : List Char)
    (hex : ∃ q ∈ cssMatches s, q.1 = k)
    (hall : ∀ q ∈ cssMatches s, q.1 = k → q.2 = v) :
    dlookup (read_css_variables s) k = some v := by
  rw [read_css_lookup]
  cases hf : (cssMatches s).reverse.find? (fun p => decide (p.1 = k)) with
  | some p =>
    have hp := List.find?_some hf
    have hpm : p ∈ cssMatches s := List.mem_reverse.mp (List.mem_of_find?_eq_some hf)
    show some p.2 = some v
    rw [hall p hpm (by simpa using hp)]
  | none =>
    exfalso
    obtain ⟨q, hq, hqk⟩ := hex
    have hnone := List.find?_eq_none.mp hf q (List.mem_reverse.mpr hq)
    simp [hqk] at hnone

/-- Claim C1 (amended): for every file and every mapping of `--`-prefixed
recognised variable names (`--color<digits>`, `--background`,
`--foreground`, `--cursor`, pairwise distinct) to 6-hex-digit `#RRGGBB`
values, running `update_file_colors` and then `read_css_variables` on the
result recovers exactly the mapped value for every mapping key whose
declaration is present in the file (under the `--key` / `key` name
correspondence the program itself uses). -/
theorem patch_read_roundtrip
    (M : List (List Char × List Char)) (content : List Char)
    (hwf : ∀ p ∈ M, wfEntry p) (hnd : (M.map Prod.fst).Nodup)
    (k v n : List Char) (hmem : (k, v) ∈ M) (hk : k = '-' :: '-' :: n)
    (hpres : ∃ q ∈ cssMatches content, q.1 = n) :
    dlookup (read_css_variables (applyMapping M content).1) n = some v := by
  have hfst : (applyMapping M content).1 =
      M.foldl (fun c p => subColor p.1 p.2 c) content := applyMappingAux_fst M content false
  rw [hfst]
  have hlook : dlookup M k = some v := dlookup_of_mem_nodup M k v hmem hnd
  obtain ⟨n1, h1, hrec1, hk1, hv1, hall1, hlen1⟩ := hwf (k, v) hmem
  have hk1k : k = '-' :: '-' :: n1 := hk1
  have hv1v : v = '#' :: h1 := hv1
  have hnn : n1 = n := by
    rw [hk] at hk1k
    injection hk1k with _ e
    injection e with _ e2
    exact e2.symm
  subst hnn
  have hmh : ∀ hx : List Char, mappingHex M n1 hx = h1 := by
    intro hx
    rw [mappingHex, ← hk, hlook, hv1v]
    rfl
  rw [hv1v]
  apply dlookup_read_css_of_all
  · obtain ⟨q, hq, hqk⟩ := hpres
    rw [cssMatches] at hq
    obtain ⟨seg, hseg, hkv⟩ := List.mem_filterMap.mp hq
    cases seg with
    | ch c => simp at hkv
    | decl m ws hx =>
      have hq2 : (m, '#' :: hx) = q := by simpa using hkv
      have hmn : m = n1 := by rw [← hq2] at hqk; exact hqk
      subst hmn
      refine ⟨(m, '#' :: mappingHex M m hx), ?_, rfl⟩
      rw [cssMatches, scan_foldl_subColor M content hwf hnd]
      apply List.mem_filterMap.mpr
      exact ⟨transfSeg (mappingHex M) (Seg.decl m ws hx),
        List.mem_map_of_mem _ hseg, by simp [transfSeg]⟩
  · intro q hq hqk
    rw [cssMatches, scan_foldl_subColor M content hwf hnd] at hq
    obtain ⟨seg, hseg, hkv⟩ := List.mem_filterMap.mp hq
    obtain ⟨seg0, hseg0, hseg0t⟩ := List.mem_map.mp hseg
    cases seg0 with
    | ch c =>
      rw [← hseg0t] at hkv
      simp [transfSeg] at hkv
    | decl m ws hx =>
      rw [← hseg0t] at hkv
      have hq2 : (m, '#' :: mappingHex M m hx) = q := by simpa [transfSeg] using hkv
      have hmn : m = n1 := by rw [← hq2] at hqk; exact hqk
      subst hmn
      rw [← hq2]
      show '#' :: mappingHex M m hx = '#' :: h1
      rw [hmh hx]

/-- Claim C1 as stated is false: with the mapping key `--myvar`, whose
declaration `--myvar: #000000;` is present in the file, the patch rewrites
the file (so the declaration was matched), yet `read_css_variables` on the
patched file returns an empty mapping — the value is not recovered under
any key. -/
theorem patch_read_roundtrip_cex :
    (applyMapping [("--myvar".toList, "#abcdef".toList)] "--myvar: #000000;".toList).1 ≠
        "--myvar: #000000;".toList ∧
      read_css_variables
        (applyMapping [("--myvar".toList, "#abcdef".toList)]
          "--myvar: #000000;".toList).1 = [] := by
  decide

/-- Witness for the amended claim C1 at a concrete file and mapping. -/
theorem patch_read_roundtrip_witness :
    dlookup (read_css_variables
        (applyMapping [("--color1".toList, "#abcdef".toList)]
          "--color1: #111111;".toList).1)
      "color1".toList = some "#abcdef".toList := by
  refine patch_read_roundtrip [("--color1".toList, "#abcdef".toList)]
    "--color1: #111111;".toList ?_ (by decide) "--color1".toList "#abcdef".toList
    "color1".toList (by decide) rfl (by decide)
  intro p hp
  rw [List.mem_singleton] at hp
  subst hp
  exact ⟨"color1".toList, "abcdef".toList, by decide, rfl, rfl, by decide, by decide⟩

/-- Claim C8: when a file declares the same variable several times,
`read_css_variables` returns a single value for that key, and the last
occurrence in the file wins (the dict assignment of a later `findall`
match overwrites the earlier one). -/
theorem read_css_last_occurrence_wins (s k : List Char) (p : List Char × List Char)
    (hf : (cssMatches s).reverse.find? (fun q => decide (q.1 = k)) = some p) :
    dlookup (read_css_variables s) k = some p.2 := by
  rw [read_css_lookup, hf]

/-- Witness for claim C8: two `--background` declarations, the later value
`#222222` wins. -/
theorem read_css_last_occurrence_wins_witness :
    dlookup (read_css_variables
        "--background: #111111;\n--background: #222222;".toList)
      "background".toList = some "#222222".toList := by
  exact read_css_last_occurrence_wins
    "--background: #111111;\n--background: #222222;".toList "background".toList
    ("background".toList, "#222222".toList) (by decide)

/-- Claim C2 (amended): the patch pattern matches the variable name followed
immediately by a colon (no whitespace allowed before the colon), then
optional whitespace, then a 6-hex-digit value; it replaces only the
`#RRGGBB` span and preserves the matched prefix, including the original
whitespace after the colon, exactly, then continues after the match. -/
theorem patch_pattern_shape (name col ws h rest : List Char)
    (hws : ws.all isWsChar = true) (hh : h.all isHexChar = true) (hl : h.length = 6) :
    subColor name col (name ++ ':' :: (ws ++ '#' :: (h ++ rest))) =
      (name ++ ':' :: ws) ++ col ++ subColor name col rest := by
  rw [subColor_match col (matchVarDecl_refold name ws h rest hws hh hl)]

/-- Claim C2 as stated is false: a declaration with whitespace between the
name and the colon (`--color1 : #123456;`) is not matched — the file is
reported unchanged and not rewritten. -/
theorem patch_pattern_shape_cex :
    update_file_colors (some "--color1 : #123456;".toList)
      [("--color1".toList, "#abcdef".toList)] =
      ⟨some "--color1 : #123456;".toList, false, none⟩ := by
  decide

/-- Witness for the amended claim C2 at a concrete declaration. -/
theorem patch_pattern_shape_witness :
    subColor "--color3".toList "#ff00aa".toList "--color3: #000000;".toList =
      "--color3: #ff00aa;".toList := by
  have hth := patch_pattern_shape "--color3".toList "#ff00aa".toList [' ']
    "000000".toList ";".toList (by decide) (by decide) (by decide)
  revert hth
  decide

/-- Claim C3: a mapping key that is a strict prefix of a longer declared
variable name never rewrites the longer declaration: the pattern is
anchored on the whole name plus its colon, so the substitution passes over
the longer declaration unchanged and continues after it (for any
replacement color and any remaining file contents). -/
theorem patch_no_prefix_collision (n e ws h rest col : List Char)
    (hrec : isRecognized (n ++ e) = true) (hne : e ≠ [])
    (hws : ws.all isWsChar = true) (hh : h.all isHexChar = true) (hl : h.length = 6) :
    subColor ('-' :: '-' :: n) col
        ('-' :: '-' :: ((n ++ e) ++ ':' :: (ws ++ '#' :: (h ++ rest)))) =
      '-' :: '-' :: (((n ++ e) ++ ':' :: (ws ++ '#' :: h)) ++
        subColor ('-' :: '-' :: n) col rest) := by
  have h1 : matchVarDecl ('-' :: '-' :: n)
      ('-' :: '-' :: ((n ++ e) ++ ':' :: (ws ++ '#' :: (h ++ rest)))) = none := by
    rw [matchVarDecl]
    have hd : dropPref (('-' :: '-' :: n) ++ [':'])
        ('-' :: '-' :: ((n ++ e) ++ ':' :: (ws ++ '#' :: (h ++ rest)))) = none := by
      cases e with
      | nil => exact absurd rfl hne
      | cons e0 e' =>
        have he0 : e0 ≠ ':' := (isRecognized_chars hrec e0 (by simp)).2
        simp only [List.cons_append]
        rw [dropPref, if_pos rfl, dropPref, if_pos rfl]
        rw [show (n ++ e0 :: e') ++ ':' :: (ws ++ '#' :: (h ++ rest)) =
          n ++ (e0 :: (e' ++ ':' :: (ws ++ '#' :: (h ++ rest)))) from by simp]
        rw [dropPref_append_left n [':'] _, dropPref, if_neg he0]
    rw [hd]
  obtain ⟨c0, t0, hm0, hc0⟩ := isRecognized_head hrec
  have h2 : matchVarDecl ('-' :: '-' :: n)
      ('-' :: ((n ++ e) ++ ':' :: (ws ++ '#' :: (h ++ rest)))) = none := by
    rw [hm0, List.cons_append]
    exact matchVarDecl_snd_ne _ hc0
  rw [subColor_nomatch col h1, subColor_nomatch col h2]
  have hX : (n ++ e) ++ ':' :: (ws ++ '#' :: (h ++ rest)) =
      ((n ++ e) ++ ':' :: (ws ++ '#' :: h)) ++ rest := by simp
  rw [hX, subColor_pass n col _ rest (declBody_noDash hrec hws hh)]

/-- Witness for claim C3: mapping key `--color1`, file `--color10: #123456;`
— the file is left unchanged. -/
theorem patch_no_prefix_collision_witness :
    subColor "--color1".toList "#abcdef".toList "--color10: #123456;".toList =
      "--color10: #123456;".toList := by
  have hth := patch_no_prefix_collision "color1".toList "0".toList [' ']
    "123456".toList ";".toList "#abcdef".toList (by decide) (by decide) (by decide)
    (by decide) (by decide)
  revert hth
  decide

/-- Claim C10: on a declaration whose value has eight hex digits, the patch
pattern matches only the first six digits after the hash; the replacement
keeps the matched prefix, inserts the new value, and leaves the remaining
two hex digits in place right after it. -/
theorem patch_eight_digit_partial (n col ws h h2 rest : List Char)
    (hws : ws.all isWsChar = true) (hh : h.all isHexChar = true) (hl : h.length = 6)
    (hh2 : h2.all isHexChar = true) (hl2 : h2.length = 2) :
    subColor ('-' :: '-' :: n) col
        ('-' :: '-' :: (n ++ ':' :: (ws ++ '#' :: (h ++ (h2 ++ rest))))) =
      ('-' :: '-' :: (n ++ ':' :: ws)) ++ col ++
        (h2 ++ subColor ('-' :: '-' :: n) col rest) := by
  have hm := matchVarDecl_refold ('-' :: '-' :: n) ws h (h2 ++ rest) hws hh hl
  have hm2 : matchVarDecl ('-' :: '-' :: n)
      ('-' :: '-' :: (n ++ ':' :: (ws ++ '#' :: (h ++ (h2 ++ rest))))) =
      some (('-' :: '-' :: n) ++ ':' :: ws, h, h2 ++ rest) := by simpa using hm
  rw [subColor_match col hm2, subColor_pass n col h2 rest
    (fun c hc => isHexChar_ne_dash (by rw [List.all_eq_true] at hh2; exact hh2 c hc))]
  simp

/-- Witness for claim C10: `--background: #11223344;` patched with
`#abcdef` yields `--background: #abcdef44;`. -/
theorem patch_eight_digit_partial_witness :
    subColor "--background".toList "#abcdef".toList
        "--background: #11223344;".toList =
      "--background: #abcdef44;".toList := by
  have hth := patch_eight_digit_partial "background".toList "#abcdef".toList [' ']
    "112233".toList "44".toList ";".toList (by decide) (by decide) (by decide)
    (by decide) (by decide)
  revert hth
  decide

/-- Claim C4: applying the patch with a mapping whose values all equal the
values already declared in the file leaves the internal `updated` flag
false, the file byte-for-byte unchanged and unwritten; when the flag stays
false the file is never rewritten; and the flag only becomes true when some
mapping entry's substitution actually altered the evolving text. -/
theorem patch_idempotent_no_spurious_write (content : List Char)
    (M : List (List Char × List Char)) :
    ((∀ p ∈ M, ∀ val ∈ declValues p.1 content, p.2 = '#' :: val) →
        update_file_colors (some content) M = ⟨some content, false, none⟩) ∧
      ((update_file_colors (some content) M).updated = false →
        (update_file_colors (some content) M).fileAfter = some content) ∧
      ((update_file_colors (some content) M).updated = true →
        ∃ c0 p, p ∈ M ∧ subColor p.1 p.2 c0 ≠ c0) := by
  refine ⟨?_, ?_, ?_⟩
  · intro hval
    have hfix : ∀ p ∈ M, subColor p.1 p.2 content = content := fun p hp =>
      subColor_self p.1 p.2 content.length content le_rfl (hval p hp)
    have happ : applyMapping M content = (content, false) :=
      applyMappingAux_fixed M content false hfix
    simp [update_file_colors, happ]
  · intro hupd
    cases hr : (applyMapping M content).2 with
    | false => simp [update_file_colors, hr]
    | true => simp [update_file_colors, hr] at hupd
  · intro hupd
    have hflag : (applyMapping M content).2 = true := by
      by_contra hne
      rw [Bool.not_eq_true] at hne
      simp [update_file_colors, hne] at hupd
    rcases applyMappingAux_flag M content false hflag with hb | hex
    · cases hb
    · exact hex

/-- Witness for claim C4: patching `--color3: #ff00aa;` with the value it
already has reports no change and performs no write. -/
theorem patch_idempotent_no_spurious_write_witness :
    update_file_colors (some "--color3: #ff00aa;".toList)
      [("--color3".toList, "#ff00aa".toList)] =
      ⟨some "--color3: #ff00aa;".toList, false, none⟩ := by
  apply (patch_idempotent_no_spurious_write _ _).1
  intro p hp
  rw [List.mem_singleton] at hp
  subst hp
  decide

/-- Claim C5 (amended): `update_file_colors` returns `None` on every path —
it has no `return` with a value — so there is no boolean changed result;
when the file does not exist it skips the file (no write) after a warning. -/
theorem patch_missing_file_returns_none (M : List (List Char × List Char))
    (file : Option (List Char)) :
    update_file_colors none M = ⟨none, false, none⟩ ∧
      (update_file_colors file M).ret = none := by
  constructor
  · rfl
  · cases file with
    | none => rfl
    | some content =>
      cases hr : (applyMapping M content).2 <;> simp [update_file_colors, hr]

/-- Claim C5 as stated is false: on an existing file where a replacement
does occur (the internal flag is set and the file is rewritten), the
function still returns `None`, not a boolean changed flag. -/
theorem patch_returns_none_cex :
    (update_file_colors (some "--color3: #000000;".toList)
        [("--color3".toList, "#ff00aa".toList)]).updated = true ∧
      (update_file_colors (some "--color3: #000000;".toList)
        [("--color3".toList, "#ff00aa".toList)]).ret = none := by
  decide

/-- For a non-`background` variable the assigned value is just uppercased. -/
theorem schemeVal_ne_background {k : String} (v : String) (hk : k ≠ "background") :
    schemeVal k v = strUpper v := by
  rw [schemeVal, if_neg]
  intro hcond
  rw [Bool.and_eq_true] at hcond
  exact hk (by simpa using hcond.1)

/-- A 9-character `background` value is truncated before uppercasing. -/
theorem schemeVal_background_nine {v : String} (h9 : strLen v = 9) :
    schemeVal "background" v = strUpper (strTake7 v) := by
  rw [schemeVal, if_pos (by simp [h9])]

/-- A `background` value of any other length is not truncated. -/
theorem schemeVal_background_other {v : String} (h9 : ¬ strLen v = 9) :
    schemeVal "background" v = strUpper v := by
  rw [schemeVal, if_neg]
  intro hcond
  rw [Bool.and_eq_true] at hcond
  exact h9 (by simpa using hcond.2)

/-- One scheme-loop step only writes its own property. -/
theorem dlookup_schemeStep_ne (vars sch : List (String × String))
    (q : String × String) (p : String) (hne : q.2 ≠ p) :
    dlookup (schemeStep vars sch q) p = dlookup sch p := by
  rw [schemeStep]
  cases hv : dlookup vars q.1 with
  | none => rfl
  | some v =>
    simp only [hv]
    rw [dlookup_dinsert, if_neg (fun he => hne he.symm)]

/-- The scheme loop leaves properties it never assigns untouched. -/
theorem dlookup_foldl_schemeStep_notmem (vars : List (String × String)) :
    ∀ (entries : List (String × String)) (sch : List (String × String)) (p : String),
      p ∉ entries.map Prod.snd →
      dlookup (entries.foldl (schemeStep vars) sch) p = dlookup sch p := by
  intro entries
  induction entries with
  | nil => intro sch p _; rfl
  | cons q es ih =>
    intro sch p hp
    rw [List.map_cons] at hp
    rw [List.foldl_cons, ih _ p (fun hm => hp (List.mem_cons_of_mem _ hm)),
      dlookup_schemeStep_ne vars sch q p
        (by intro he; exact hp (he ▸ List.mem_cons_self _ _))]

/-- Lookup after the scheme loop, when the properties are pairwise distinct:
the entry owning the property decides the value, and an absent variable
leaves the previous value. -/
theorem dlookup_foldl_schemeStep (vars : List (String × String)) :
    ∀ (entries : List (String × String)) (sch : List (String × String)) (p : String),
      (entries.map Prod.snd).Nodup →
      dlookup (entries.foldl (schemeStep vars) sch) p =
        (match entries.find? (fun q => decide (q.2 = p)) with
         | some q =>
           (match dlookup vars q.1 with
            | some v => some (schemeVal q.1 v)
            | none => dlookup sch p)
         | none => dlookup sch p) := by
  intro entries
  induction entries with
  | nil => intro sch p _; rfl
  | cons q es ih =>
    intro sch p hnd
    rw [List.foldl_cons]
    by_cases hq : q.2 = p
    · have hfind : (q :: es).find? (fun q => decide (q.2 = p)) = some q :=
        List.find?_cons_of_pos _ (by simp [hq])
      rw [hfind]
      have hnot : p ∉ es.map Prod.snd := by
        rw [List.map_cons, List.nodup_cons] at hnd
        exact hq ▸ hnd.1
      rw [dlookup_foldl_schemeStep_notmem vars es _ p hnot, schemeStep]
      cases hv : dlookup vars q.1 with
      | none => simp only [hv]
      | some v =>
        simp only [hv]
        rw [dlookup_dinsert, if_pos hq.symm]
    · have hfind : (q :: es).find? (fun q => decide (q.2 = p)) =
          es.find? (fun q => decide (q.2 = p)) :=
        List.find?_cons_of_neg _ (by simp [hq])
      rw [hfind, ih _ p (by rw [List.map_cons, List.nodup_cons] at hnd; exact hnd.2)]
      cases hf : es.find? (fun q => decide (q.2 = p)) with
      | some q2 =>
        cases hv : dlookup vars q2.1 with
        | some v => simp only [hv]
        | none =>
          simp only [hv]
          exact dlookup_schemeStep_ne vars sch q p hq
      | none => exact dlookup_schemeStep_ne vars sch q p hq

/-- The trailing `selectionBackground` assignment does not affect lookups of
other properties. -/
theorem dlookup_uwts_ne_selection (vars sch : List (String × String)) (p : String)
    (hp : p ≠ "selectionBackground") :
    dlookup (update_windows_terminal_scheme vars sch) p =
      dlookup (color_map.foldl (schemeStep vars) sch) p := by
  rw [update_windows_terminal_scheme]
  cases h8 : dlookup vars "color8" with
  | none => rfl
  | some v =>
    simp only [h8]
    rw [dlookup_dinsert, if_neg hp]


/-- Claim C6: when the palette's `background` value has length 9
(`#RRGGBBAA`), the scheme update assigns its first 7 characters uppercased
to the record's `background` property; a `background` value of any other
length, and the value of every other mapped variable, is assigned
uppercased without truncation. -/
theorem scheme_background_alpha_truncation (vars sch : List (String × String)) :
    (∀ v, dlookup vars "background" = some v → strLen v = 9 →
        dlookup (update_windows_terminal_scheme vars sch) "background" =
          some (strUpper (strTake7 v))) ∧
      (∀ v, dlookup vars "background" = some v → ¬ strLen v = 9 →
        dlookup (update_windows_terminal_scheme vars sch) "background" =
          some (strUpper v)) ∧
      (∀ k p v, (k, p) ∈ color_map → k ≠ "background" → dlookup vars k = some v →
        dlookup (update_windows_terminal_scheme vars sch) p = some (strUpper v)) := by
  refine ⟨?_, ?_, ?_⟩
  · intro v hv h9
    rw [dlookup_uwts_ne_selection vars sch _ (by decide),
      dlookup_foldl_schemeStep vars color_map sch _ (by decide),
      show color_map.find? (fun q => decide (q.2 = "background")) =
        some ("background", "background") from by decide]
    simp only [hv]
    rw [schemeVal_background_nine h9]
  · intro v hv h9
    rw [dlookup_uwts_ne_selection vars sch _ (by decide),
      dlookup_foldl_schemeStep vars color_map sch _ (by decide),
      show color_map.find? (fun q => decide (q.2 = "background")) =
        some ("background", "background") from by decide]
    simp only [hv]
    rw [schemeVal_background_other h9]
  · intro k p v hkp hkb hv
    fin_cases hkp <;>
      first
        | exact absurd rfl hkb
        | (rw [dlookup_uwts_ne_selection vars sch _ (by decide),
            dlookup_foldl_schemeStep vars color_map sch _ (by decide)]
           simp [color_map, List.find?_cons, hv, schemeVal])

/-- Witness for claim C6: a 9-character background `#12345678` becomes
`#123456`; another variable (`color3` → `yellow`) is only uppercased. -/
theorem scheme_background_alpha_truncation_witness :
    dlookup (update_windows_terminal_scheme
        [("background", "#12345678"), ("color3", "#aabbcc")]
        [("name", "Custom Warm")]) "background" = some "#123456" ∧
      dlookup (update_windows_terminal_scheme
        [("background", "#12345678"), ("color3", "#aabbcc")]
        [("name", "Custom Warm")]) "yellow" = some "#AABBCC" := by
  constructor
  · have hth := (scheme_background_alpha_truncation
      [("background", "#12345678"), ("color3", "#aabbcc")]
      [("name", "Custom Warm")]).1 "#12345678" (by decide) (by decide)
    exact hth.trans (by decide)
  · have hth := (scheme_background_alpha_truncation
      [("background", "#12345678"), ("color3", "#aabbcc")]
      [("name", "Custom Warm")]).2.2 "color3" "yellow" "#aabbcc"
      (by decide) (by decide) (by decide)
    exact hth.trans (by decide)

/-- Claim C7: whenever `color8` is present in the palette, the scheme
update sets `selectionBackground` to its uppercased value, independent of
the main property table; when `color8` is absent, `selectionBackground` is
left unchanged. -/
theorem scheme_selection_background (vars sch : List (String × String)) :
    (∀ v, dlookup vars "color8" = some v →
        dlookup (update_windows_terminal_scheme vars sch) "selectionBackground" =
          some (strUpper v)) ∧
      (dlookup vars "color8" = none →
        dlookup (update_windows_terminal_scheme vars sch) "selectionBackground" =
          dlookup sch "selectionBackground") := by
  constructor
  · intro v h8
    rw [update_windows_terminal_scheme]
    simp only [h8]
    rw [dlookup_dinsert, if_pos rfl]
  · intro h8
    rw [update_windows_terminal_scheme]
    simp only [h8]
    exact dlookup_foldl_schemeStep_notmem vars color_map sch _ (by decide)

/-- Witness for claim C7: `color8` present sets `selectionBackground` to
its uppercase; `color8` absent leaves a pre-existing value untouched. -/
theorem scheme_selection_background_witness :
    dlookup (update_windows_terminal_scheme [("color8", "#aabbcc")] [])
        "selectionBackground" = some "#AABBCC" ∧
      dlookup (update_windows_terminal_scheme []
          [("selectionBackground", "#FFFFFF")]) "selectionBackground" =
        some "#FFFFFF" := by
  constructor
  · have hth := (scheme_selection_background [("color8", "#aabbcc")] []).1
      "#aabbcc" (by decide)
    exact hth.trans (by decide)
  · have hth := (scheme_selection_background []
      [("selectionBackground", "#FFFFFF")]).2 (by decide)
    exact hth.trans (by decide)

/-- Assigning a fresh key appends the pair at the end of the dict. -/
theorem dinsert_fresh {α β : Type} [DecidableEq α] :
    ∀ (d : List (α × β)) (k : α) (v : β), k ∉ d.map Prod.fst →
      dinsert d k v = d ++ [(k, v)] := by
  intro d
  induction d with
  | nil => intro k v _; rfl
  | cons p d ih =>
    intro k v hk
    obtain ⟨k0, v0⟩ := p
    rw [List.map_cons] at hk
    rw [dinsert, if_neg (by intro he; subst he; exact hk (List.mem_cons_self _ _)),
      ih k v (fun hm => hk (List.mem_cons_of_mem _ hm)), List.cons_append]

/-- Claim C9 (amended): the color-mapping table built by `update_css`
consists of exactly nineteen fixed keys in order — `--color0` … `--color15`
(defaulting to `#000000` when absent from the loader's `colors`),
`--background` (default `#000000`), `--foreground` and `--cursor` (default
`#ffffff`), taken from the loader's `special`. -/
theorem color_mapping_nineteen_keys (colors special : List (String × String)) :
    update_css_color_mapping colors special =
      [("--color0", (dlookup colors "color0").getD "#000000"),
       ("--color1", (dlookup colors "color1").getD "#000000"),
       ("--color2", (dlookup colors "color2").getD "#000000"),
       ("--color3", (dlookup colors "color3").getD "#000000"),
       ("--color4", (dlookup colors "color4").getD "#000000"),
       ("--color5", (dlookup colors "color5").getD "#000000"),
       ("--color6", (dlookup colors "color6").getD "#000000"),
       ("--color7", (dlookup colors "color7").getD "#000000"),
       ("--color8", (dlookup colors "color8").getD "#000000"),
       ("--color9", (dlookup colors "color9").getD "#000000"),
       ("--color10", (dlookup colors "color10").getD "#000000"),
       ("--color11", (dlookup colors "color11").getD "#000000"),
       ("--color12", (dlookup colors "color12").getD "#000000"),
       ("--color13", (dlookup colors "color13").getD "#000000"),
       ("--color14", (dlookup colors "color14").getD "#000000"),
       ("--color15", (dlookup colors "color15").getD "#000000"),
       ("--background", (dlookup special "background").getD "#000000"),
       ("--foreground", (dlookup special "foreground").getD "#ffffff"),
       ("--cursor", (dlookup special "cursor").getD "#ffffff")] := by
  have hrange : List.range 16 = [0, 1, 2, 3, 4, 5, 6, 7, 8, 9, 10, 11, 12, 13, 14, 15] := by
    decide
  simp only [update_css_color_mapping, hrange]
  simp only [List.foldl_cons, List.foldl_nil,
    show ("--color" ++ toString (0 : Nat) : String) = "--color0" from by decide,
    show ("--color" ++ toString (1 : Nat) : String) = "--color1" from by decide,
    show ("--color" ++ toString (2 : Nat) : String) = "--color2" from by decide,
    show ("--color" ++ toString (3 : Nat) : String) = "--color3" from by decide,
    show ("--color" ++ toString (4 : Nat) : String) = "--color4" from by decide,
    show ("--color" ++ toString (5 : Nat) : String) = "--color5" from by decide,
    show ("--color" ++ toString (6 : Nat) : String) = "--color6" from by decide,
    show ("--color" ++ toString (7 : Nat) : String) = "--color7" from by decide,
    show ("--color" ++ toString (8 : Nat) : String) = "--color8" from by decide,
    show ("--color" ++ toString (9 : Nat) : String) = "--color9" from by decide,
    show ("--color" ++ toString (10 : Nat) : String) = "--color10" from by decide,
    show ("--color" ++ toString (11 : Nat) : String) = "--color11" from by decide,
    show ("--color" ++ toString (12 : Nat) : String) = "--color12" from by decide,
    show ("--color" ++ toString (13 : Nat) : String) = "--color13" from by decide,
    show ("--color" ++ toString (14 : Nat) : String) = "--color14" from by decide,
    show ("--color" ++ toString (15 : Nat) : String) = "--color15" from by decide,
    show ("color" ++ toString (0 : Nat) : String) = "color0" from by decide,
    show ("color" ++ toString (1 : Nat) : String) = "color1" from by decide,
    show ("color" ++ toString (2 : Nat) : String) = "color2" from by decide,
    show ("color" ++ toString (3 : Nat) : String) = "color3" from by decide,
    show ("color" ++ toString (4 : Nat) : String) = "color4" from by decide,
    show ("color" ++ toString (5 : Nat) : String) = "color5" from by decide,
    show ("color" ++ toString (6 : Nat) : String) = "color6" from by decide,
    show ("color" ++ toString (7 : Nat) : String) = "color7" from by decide,
    show ("color" ++ toString (8 : Nat) : String) = "color8" from by decide,
    show ("color" ++ toString (9 : Nat) : String) = "color9" from by decide,
    show ("color" ++ toString (10 : Nat) : String) = "color10" from by decide,
    show ("color" ++ toString (11 : Nat) : String) = "color11" from by decide,
    show ("color" ++ toString (12 : Nat) : String) = "color12" from by decide,
    show ("color" ++ toString (13 : Nat) : String) = "color13" from by decide,
    show ("color" ++ toString (14 : Nat) : String) = "color14" from by decide,
    show ("color" ++ toString (15 : Nat) : String) = "color15" from by decide]
  simp [dinsert_fresh]

/-- Claim C9 as stated is false on its key count: the table has nineteen
keys (16 indexed colors plus background, foreground and cursor), not
eighteen. -/
theorem color_mapping_key_count_cex :
    ((update_css_color_mapping [] []).map Prod.fst).length = 19 ∧
      ¬ ((update_css_color_mapping [] []).map Prod.fst).length = 18 := by
  decide
